import Mathlib

/-!
Verification development for the StarRupture optimizer core.

The development shallowly embeds the three computational modules of the
repository — `src/utils/calculations.ts` (recursive demand resolution),
`src/utils/optimizer.ts` (multi-restart k-means over an injected spatial
embedding) and `src/utils/geneticOptimizer.ts` (evolutionary partition
search) — as executable Lean functions over exact rational arithmetic.

Modelling conventions, fixed once here:
* JavaScript numbers are modelled as `ℚ` (exact arithmetic).
* A JavaScript `Map` is modelled as an association list in insertion
  order: `set` on a present key updates it in place, a fresh key is
  appended at the end, mirroring iteration order of `Map`.
* The unguarded recursion of `traverse` is modelled with an explicit
  fuel parameter.  `calculateRequirements` runs it with fuel
  `sufficientFuel B`, which is enough for every catalog whose recipe
  dependency graph is acyclic (on such catalogs any dependency chain
  visits pairwise distinct items, each owning a distinct recipe, so its
  length is at most the recipe count plus one).  On cyclic catalogs the
  TypeScript function does not return at all, so the fuel-truncated
  value is only ever compared against the source on acyclic inputs.
* `Math.random`-driven choices are injected as oracle parameters, with
  the `Math.random` contract (values in `[0,1)`) or the sort contract
  (the shuffled list is a permutation) stated as hypotheses where a
  claim needs them.
-/

namespace SR

/-- One item flow rate of a recipe (`ItemRate` in `types.ts`). -/
structure ItemRate where
  id : String
  amount_per_minute : ℚ
deriving DecidableEq, Repr

/-- A recipe: one output and a list of inputs (`Recipe` in `types.ts`). -/
structure Recipe where
  output : ItemRate
  inputs : List ItemRate
deriving DecidableEq, Repr

/-- A catalog entry (`Building` in `types.ts`).  The optional `recipes`
array is modelled as a plain list, with `[]` for an absent field: the
TypeScript loops skip an absent or empty array identically. -/
structure Building where
  id : String
  name : String
  recipes : List Recipe
deriving DecidableEq, Repr

/-- The whole catalog (`Buildings` in `types.ts`). -/
abbrev Buildings := List Building

/-- A production target: item id plus desired rate per minute. -/
structure Target where
  id : String
  amount : ℚ
deriving DecidableEq, Repr

/-- A node of the demand flow graph (`SankeyNode` in `calculations.ts`).
The optional fields are always written before the node is stored, so
`category`, `machineName` and `requiredAmount` are modelled total. -/
structure SankeyNode where
  name : String
  category : String
  machineName : String
  outputPerMachine : Option ℚ
  requiredAmount : ℚ
deriving DecidableEq, Repr

/-- A value-weighted flow edge (`SankeyLink` in `calculations.ts`). -/
structure SankeyLink where
  source : String
  target : String
  value : ℚ
deriving DecidableEq, Repr

/-- The result of demand resolution (`SankeyData` in `calculations.ts`). -/
structure SankeyData where
  nodes : List SankeyNode
  links : List SankeyLink
deriving DecidableEq, Repr

/-- The mutable state threaded through `traverse`: the `nodes` map and
the `linksMap` of `calculateRequirements`, both in insertion order.
Link keys are the literal strings `source ++ "|" ++ target` built by the
source. -/
structure CalcState where
  nodes : List SankeyNode
  links : List (String × ℚ)
deriving DecidableEq, Repr

/-- The value returned by the `findRecipe` closure in
`calculateRequirements`: the first matching recipe together with its
building's id and display name. -/
structure FindResult where
  recipe : Recipe
  buildingId : String
  buildingName : String
deriving DecidableEq, Repr

/-- Scan one building's recipe list for the first recipe producing
`itemId` (inner loop of `findRecipe`). -/
def findRecipeIn (b : Building) (itemId : String) : List Recipe → Option FindResult
  | [] => none
  | r :: rs =>
    if r.output.id = itemId then some ⟨r, b.id, b.name⟩ else findRecipeIn b itemId rs

/-- First-match recipe lookup over the catalog (`findRecipe` in
`calculateRequirements`): buildings in order, recipes in order. -/
def findRecipe (B : Buildings) (itemId : String) : Option FindResult :=
  match B with
  | [] => none
  | b :: bs =>
    match findRecipeIn b itemId b.recipes with
    | some res => some res
    | none => findRecipe bs itemId

/-- JavaScript `Map.set(key, (Map.get(key) ?? 0) + v)`: update the first
(unique) occurrence in place, or append a fresh key at the end. -/
def setAdd : List (String × ℚ) → String → ℚ → List (String × ℚ)
  | [], key, v => [(key, v)]
  | (k, w) :: rest, key, v =>
    if k = key then (k, w + v) :: rest else (k, w) :: setAdd rest key v

/-- JavaScript `String.prototype.split` on a single separator character,
on the underlying character list.  The result is always non-empty. -/
def splitOnPipe : List Char → List (List Char)
  | [] => [[]]
  | c :: cs =>
    match splitOnPipe cs with
    | [] => [[]]
    | h :: t => if c = '|' then [] :: h :: t else (c :: h) :: t

/-- Decode a `linksMap` key: `key.split('|')` followed by destructuring
the first two components (`const [source, target] = key.split('|')`).
A key with no separator would leave the target `undefined` in the
source; such a key is never built, and the model defaults to `""`. -/
def decodeKey (k : String) : String × String :=
  match splitOnPipe k.data with
  | a :: b :: _ => (⟨a⟩, ⟨b⟩)
  | [a] => (⟨a⟩, "")
  | [] => ("", "")

/-- The fresh node created on an item's first visit: category and
machine metadata come from the first matching recipe, or the `"raw"` /
`"Source"` defaults; the accumulated rate starts at zero. -/
def freshNode (itemId : String) (res : Option FindResult) : SankeyNode :=
  { name := itemId
    category := match res with | some r => r.buildingId | none => "raw"
    machineName := match res with | some r => r.buildingName | none => "Source"
    outputPerMachine :=
      match res with | some r => some r.recipe.output.amount_per_minute | none => none
    requiredAmount := 0 }

/-- Insert the item's node on first visit (`nodes.set(itemId, node)`),
leaving the map unchanged when the key is already present. -/
def ensureNode (nodes : List SankeyNode) (itemId : String) (res : Option FindResult) :
    List SankeyNode :=
  if nodes.any (fun n => n.name = itemId) then nodes
  else nodes ++ [freshNode itemId res]

/-- Accumulate `a` into the (unique) stored node named `itemId`
(`node.requiredAmount += amount`). -/
def addReq : List SankeyNode → String → ℚ → List SankeyNode
  | [], _, _ => []
  | n :: ns, itemId, a =>
    if n.name = itemId then { n with requiredAmount := n.requiredAmount + a } :: ns
    else n :: addReq ns itemId a

/-- The node-handling prefix of one `traverse` call: create the node if
needed, then accumulate the demanded rate. -/
def nodePhase (B : Buildings) (itemId : String) (amount : ℚ) (s : CalcState) : CalcState :=
  { s with nodes := addReq (ensureNode s.nodes itemId (findRecipe B itemId)) itemId amount }

/-- The recursive `traverse` of `calculateRequirements`, with explicit
fuel standing in for the unlimited JavaScript call stack.  Each level
accumulates the demanded rate into the item's node and, when a recipe
exists, merges each input's contribution into the link keyed
`input.id ++ "|" ++ itemId` before recursing into the input. -/
def traverse (B : Buildings) : ℕ → String → ℚ → CalcState → CalcState
  | 0, _, _, s => s
  | fuel + 1, itemId, amount, s =>
    match findRecipe B itemId with
    | none => nodePhase B itemId amount s
    | some r =>
      r.recipe.inputs.foldl
        (fun st inp =>
          let inputAmount := inp.amount_per_minute * (amount / r.recipe.output.amount_per_minute)
          traverse B fuel inp.id inputAmount
            { st with links := setAdd st.links (inp.id ++ "|" ++ itemId) inputAmount })
        (nodePhase B itemId amount s)

/-- One step of the input loop of `traverse`, named so the fold can be
reasoned about; definitionally the lambda inside `traverse`. -/
def traverseStep (B : Buildings) (fuel : ℕ) (itemId : String) (outRate : ℚ) (amount : ℚ)
    (st : CalcState) (inp : ItemRate) : CalcState :=
  let inputAmount := inp.amount_per_minute * (amount / outRate)
  traverse B fuel inp.id inputAmount
    { st with links := setAdd st.links (inp.id ++ "|" ++ itemId) inputAmount }

/-- Total number of recipes in the catalog. -/
def recipeCount (B : Buildings) : ℕ :=
  (B.map (fun b => b.recipes.length)).sum

/-- Fuel that suffices for every acyclic catalog: along an acyclic
dependency chain the items are pairwise distinct and each non-leaf item
owns a distinct recipe, so chains have at most `recipeCount B + 1`
items. -/
def sufficientFuel (B : Buildings) : ℕ :=
  recipeCount B + 1

/-- Demand resolution from a list of targets at a given fuel: the state
after `targets.forEach(t => traverse(t.id, t.amount))`. -/
def calcWithFuel (B : Buildings) (targets : List Target) (fuel : ℕ) : CalcState :=
  targets.foldl (fun s t => traverse B fuel t.id t.amount s) ⟨[], []⟩

/-- Package the final state as `calculateRequirements` does: nodes in
insertion order, and one link per `linksMap` entry with its key split
back into source and target. -/
def finishCalc (s : CalcState) : SankeyData :=
  { nodes := s.nodes
    links := s.links.map (fun kv => ⟨(decodeKey kv.1).1, (decodeKey kv.1).2, kv.2⟩) }

/-- The embedded `calculateRequirements`.  On catalogs whose dependency
graph is acyclic the fuel `sufficientFuel B` is never exhausted, so this
equals the unbounded recursion of the source; on cyclic catalogs the
source never returns. -/
def calculateRequirements (B : Buildings) (targets : List Target) : SankeyData :=
  finishCalc (calcWithFuel B targets (sufficientFuel B))

/-- Rank functions witnessing acyclicity: every input of the first
matching recipe of an item ranks strictly below the item. -/
def RankDescent (B : Buildings) (rank : String → ℕ) : Prop :=
  ∀ id res, findRecipe B id = some res →
    ∀ inp ∈ res.recipe.inputs, rank inp.id < rank id

/-- Acyclicity of the recipe dependency relation, stated as the
existence of a rank function.  The bound `sufficientFuel B` is the
longest-chain bound that any finite acyclic catalog admits (distinct
chain items own distinct recipes), so this is the usual notion of a
cycle-free catalog in a form the fuel model can consume. -/
def AcyclicCatalog (B : Buildings) : Prop :=
  ∃ rank : String → ℕ,
    (∀ id, rank id < sufficientFuel B) ∧ RankDescent B rank

/-- Characters of a string avoid the link-key separator. -/
def PipeFree (s : String) : Prop := '|' ∉ s.data

instance (s : String) : Decidable (PipeFree s) := by
  unfold PipeFree; infer_instance

/-- Every item id mentioned by the catalog avoids `'|'`. -/
def PipeFreeCatalog (B : Buildings) : Prop :=
  ∀ b ∈ B, ∀ r ∈ b.recipes,
    PipeFree r.output.id ∧ ∀ inp ∈ r.inputs, PipeFree inp.id

instance (B : Buildings) : Decidable (PipeFreeCatalog B) := by
  unfold PipeFreeCatalog; infer_instance

/-- Sum of the requirement rates stored for a given item name. -/
def reqSum (nodes : List SankeyNode) (id : String) : ℚ :=
  (nodes.map (fun n => if n.name = id then n.requiredAmount else 0)).sum

/-- Sum of the link values whose decoded source is a given item. -/
def linkFromSum (links : List (String × ℚ)) (id : String) : ℚ :=
  (links.map (fun kv => if (decodeKey kv.1).1 = id then kv.2 else 0)).sum

/-- Sum of the values of the returned links with a given source. -/
def sourceSum (links : List SankeyLink) (id : String) : ℚ :=
  (links.map (fun l => if l.source = id then l.value else 0)).sum

/-- Sum of the values of the returned links with a given target. -/
def targetSum (links : List SankeyLink) (id : String) : ℚ :=
  (links.map (fun l => if l.target = id then l.value else 0)).sum

/-- Sum of the externally requested rates naming a given item. -/
def targetAmount (targets : List Target) (id : String) : ℚ :=
  (targets.map (fun t => if t.id = id then t.amount else 0)).sum

/-- The one-recipe smelter catalog of the specification's worked
example: building `"smelter"` turns 1 ore per minute into 1 bar per
minute. -/
def smelterCatalog : Buildings :=
  [{ id := "smelter", name := "Smelter",
     recipes := [{ output := ⟨"bar", 1⟩, inputs := [⟨"ore", 1⟩] }] }]

/-- The worked example's target list: 10 bar per minute. -/
def smelterTargets : List Target := [⟨"bar", 10⟩]

/-! ### Elementary lemmas about the accumulation primitives -/

lemma nodePhase_links (B : Buildings) (itemId : String) (amount : ℚ) (s : CalcState) :
    (nodePhase B itemId amount s).links = s.links := rfl

lemma any_name_ensureNode (ns : List SankeyNode) (itemId : String) (res : Option FindResult) :
    (ensureNode ns itemId res).any (fun n => n.name = itemId) = true := by
  unfold ensureNode
  split
  · next h => exact h
  · simp [freshNode]

lemma reqSum_ensureNode (ns : List SankeyNode) (itemId : String) (res : Option FindResult)
    (id : String) : reqSum (ensureNode ns itemId res) id = reqSum ns id := by
  unfold ensureNode
  split
  · rfl
  · simp [reqSum, freshNode]

lemma reqSum_addReq (ns : List SankeyNode) (itemId : String) (a : ℚ) (id : String)
    (h : ns.any (fun n => n.name = itemId) = true) :
    reqSum (addReq ns itemId a) id = reqSum ns id + (if itemId = id then a else 0) := by
  induction ns with
  | nil => simp at h
  | cons n ns ih =>
    simp only [addReq]
    by_cases hn : n.name = itemId
    · rw [if_pos hn]
      simp only [reqSum, List.map_cons, List.sum_cons]
      by_cases hid : itemId = id
      · rw [if_pos hid]
        have : n.name = id := hn.trans hid
        simp [this]; ring
      · rw [if_neg hid]
        have : ¬ n.name = id := fun hcon => hid (hn.symm.trans hcon)
        simp [this]
    · rw [if_neg hn]
      rw [List.any_cons] at h
      simp only [hn, decide_eq_true_eq, Bool.false_or, decide_eq_false_iff_not,
        not_false_eq_true] at h
      have h' : ns.any (fun n => n.name = itemId) = true := by
        cases hb : ns.any (fun n => n.name = itemId) <;> simp [hb, hn] at h ⊢
      have ihh := ih h'
      simp only [reqSum, List.map_cons, List.sum_cons]
      simp only [reqSum] at ihh
      rw [ihh]
      ring

lemma reqSum_nodePhase (B : Buildings) (itemId : String) (amount : ℚ) (s : CalcState)
    (id : String) :
    reqSum (nodePhase B itemId amount s).nodes id
      = reqSum s.nodes id + (if itemId = id then amount else 0) := by
  unfold nodePhase
  rw [reqSum_addReq _ _ _ _ (any_name_ensureNode _ _ _), reqSum_ensureNode]

lemma linkFromSum_setAdd (L : List (String × ℚ)) (k : String) (v : ℚ) (id : String) :
    linkFromSum (setAdd L k v) id
      = linkFromSum L id + (if (decodeKey k).1 = id then v else 0) := by
  induction L with
  | nil => simp [setAdd, linkFromSum]
  | cons kv rest ih =>
    obtain ⟨k', w⟩ := kv
    simp only [setAdd]
    by_cases hk : k' = k
    · subst hk
      rw [if_pos rfl]
      simp only [linkFromSum, List.map_cons, List.sum_cons]
      split <;> ring
    · rw [if_neg hk]
      simp only [linkFromSum, List.map_cons, List.sum_cons] at *
      rw [ih]; ring

/-! ### Lemmas about the link-key encoding -/

lemma splitOnPipe_ne_nil (l : List Char) : splitOnPipe l ≠ [] := by
  cases l with
  | nil => simp [splitOnPipe]
  | cons c cs =>
    cases hs : splitOnPipe cs with
    | nil => simp [splitOnPipe, hs]
    | cons x xs =>
      simp only [splitOnPipe, hs]
      split <;> simp

lemma splitOnPipe_no_pipe (l : List Char) (h : '|' ∉ l) : splitOnPipe l = [l] := by
  induction l with
  | nil => rfl
  | cons c cs ih =>
    simp only [List.mem_cons, not_or] at h
    simp only [splitOnPipe, ih h.2]
    rw [if_neg (fun hc => h.1 hc.symm)]

lemma splitOnPipe_append (l1 l2 : List Char) (h : '|' ∉ l1) :
    splitOnPipe (l1 ++ '|' :: l2) = l1 :: splitOnPipe l2 := by
  induction l1 with
  | nil =>
    cases hs : splitOnPipe l2 with
    | nil => exact absurd hs (splitOnPipe_ne_nil l2)
    | cons x xs => simp [splitOnPipe, hs]
  | cons c cs ih =>
    simp only [List.mem_cons, not_or] at h
    simp only [List.cons_append, splitOnPipe, List.append_eq, ih h.2]
    rw [if_neg (fun hc => h.1 hc.symm)]

lemma data_encode (a b : String) : (a ++ "|" ++ b).data = a.data ++ '|' :: b.data := by
  simp [String.data_append]

lemma decodeKey_encode (a b : String) (ha : PipeFree a) (hb : PipeFree b) :
    decodeKey (a ++ "|" ++ b) = (a, b) := by
  unfold decodeKey
  rw [data_encode, splitOnPipe_append _ _ ha, splitOnPipe_no_pipe _ hb]

lemma decodeKey_encode_fst (a b : String) (ha : PipeFree a) :
    (decodeKey (a ++ "|" ++ b)).1 = a := by
  unfold decodeKey
  rw [data_encode, splitOnPipe_append _ _ ha]
  cases hs : splitOnPipe b.data with
  | nil => exact absurd hs (splitOnPipe_ne_nil b.data)
  | cons x xs => rfl

/-! ### Lemmas about recipe lookup -/

lemma findRecipeIn_mem (b : Building) (itemId : String) (rs : List Recipe) (res : FindResult)
    (h : findRecipeIn b itemId rs = some res) :
    res.recipe ∈ rs ∧ res.recipe.output.id = itemId := by
  induction rs with
  | nil => simp [findRecipeIn] at h
  | cons r rest ih =>
    simp only [findRecipeIn] at h
    split at h
    · next hout =>
      cases h
      exact ⟨List.mem_cons_self _ _, hout⟩
    · have := ih h
      exact ⟨List.mem_cons_of_mem _ this.1, this.2⟩

lemma findRecipe_mem (B : Buildings) (itemId : String) (res : FindResult)
    (h : findRecipe B itemId = some res) :
    ∃ b ∈ B, res.recipe ∈ b.recipes ∧ res.recipe.output.id = itemId := by
  induction B with
  | nil => simp [findRecipe] at h
  | cons b bs ih =>
    simp only [findRecipe] at h
    split at h
    · next hin =>
      cases h
      have := findRecipeIn_mem b itemId b.recipes _ hin
      exact ⟨b, List.mem_cons_self _ _, this.1, this.2⟩
    · obtain ⟨b', hb', hr, hout⟩ := ih h
      exact ⟨b', List.mem_cons_of_mem _ hb', hr, hout⟩

lemma findRecipe_input_pf (B : Buildings) (itemId : String) (res : FindResult)
    (hpf : PipeFreeCatalog B) (h : findRecipe B itemId = some res) :
    ∀ inp ∈ res.recipe.inputs, PipeFree inp.id := by
  obtain ⟨b, hb, hr, _⟩ := findRecipe_mem B itemId res h
  exact (hpf b hb res.recipe hr).2

/-! ### Unfolding equations for `traverse` -/

lemma traverse_zero (B : Buildings) (itemId : String) (a : ℚ) (s : CalcState) :
    traverse B 0 itemId a s = s := rfl

lemma traverse_succ_raw (B : Buildings) (fuel : ℕ) (itemId : String) (a : ℚ) (s : CalcState)
    (h : findRecipe B itemId = none) :
    traverse B (fuel + 1) itemId a s = nodePhase B itemId a s := by
  simp [traverse, h]

lemma traverse_succ_recipe (B : Buildings) (fuel : ℕ) (itemId : String) (a : ℚ) (s : CalcState)
    (r : FindResult) (h : findRecipe B itemId = some r) :
    traverse B (fuel + 1) itemId a s =
      r.recipe.inputs.foldl
        (traverseStep B fuel itemId r.recipe.output.amount_per_minute a)
        (nodePhase B itemId a s) := by
  simp only [traverse, h]
  congr 1

/-! ### Conservation invariant for `traverse` (claim C1) -/

lemma traverse_req_link (B : Buildings) (rank : String → ℕ) (hd : RankDescent B rank)
    (hpf : PipeFreeCatalog B) :
    ∀ fuel itemId amount s id, rank itemId < fuel →
      reqSum (traverse B fuel itemId amount s).nodes id
        = reqSum s.nodes id
          + (linkFromSum (traverse B fuel itemId amount s).links id - linkFromSum s.links id)
          + (if itemId = id then amount else 0) := by
  intro fuel
  induction fuel with
  | zero => intro itemId amount s id h; exact absurd h (Nat.not_lt_zero _)
  | succ fuel ih =>
    intro itemId amount s id h
    cases hfr : findRecipe B itemId with
    | none =>
      rw [traverse_succ_raw _ _ _ _ _ hfr, reqSum_nodePhase, nodePhase_links]
      ring
    | some r =>
      rw [traverse_succ_recipe _ _ _ _ _ _ hfr]
      have hinp : ∀ inp ∈ r.recipe.inputs, rank inp.id < fuel ∧ PipeFree inp.id := by
        intro inp hi
        refine ⟨?_, findRecipe_input_pf B itemId r hpf hfr inp hi⟩
        have h1 := hd itemId r hfr inp hi
        omega
      have main : ∀ (L : List ItemRate), (∀ inp ∈ L, rank inp.id < fuel ∧ PipeFree inp.id) →
          ∀ (s' : CalcState),
            reqSum ((L.foldl
                (traverseStep B fuel itemId r.recipe.output.amount_per_minute amount)) s').nodes id
              = reqSum s'.nodes id
                + (linkFromSum ((L.foldl
                    (traverseStep B fuel itemId r.recipe.output.amount_per_minute amount))
                      s').links id
                  - linkFromSum s'.links id) := by
        intro L
        induction L with
        | nil => intro _ s'; simp
        | cons inp rest ihL =>
          intro hL s'
          have h1 := (hL inp (List.mem_cons_self _ _)).1
          have h2 := (hL inp (List.mem_cons_self _ _)).2
          simp only [List.foldl_cons]
          rw [ihL (fun i hi => hL i (List.mem_cons_of_mem _ hi))]
          have hstep : traverseStep B fuel itemId r.recipe.output.amount_per_minute amount s' inp
              = traverse B fuel inp.id
                  (inp.amount_per_minute * (amount / r.recipe.output.amount_per_minute))
                  { s' with
                    links := setAdd s'.links (inp.id ++ "|" ++ itemId)
                      (inp.amount_per_minute * (amount / r.recipe.output.amount_per_minute)) } :=
            rfl
          rw [hstep, ih inp.id _ _ id h1]
          simp only [linkFromSum_setAdd, decodeKey_encode_fst _ _ h2]
          ring
      rw [main r.recipe.inputs hinp (nodePhase B itemId amount s), reqSum_nodePhase,
        nodePhase_links]
      ring

lemma calcWithFuel_req_link (B : Buildings) (rank : String → ℕ) (hd : RankDescent B rank)
    (hpf : PipeFreeCatalog B) (fuel : ℕ) :
    ∀ (ts : List Target) (s : CalcState) (id : String), (∀ t ∈ ts, rank t.id < fuel) →
      reqSum (ts.foldl (fun s t => traverse B fuel t.id t.amount s) s).nodes id
        = reqSum s.nodes id
          + (linkFromSum (ts.foldl (fun s t => traverse B fuel t.id t.amount s) s).links id
              - linkFromSum s.links id)
          + targetAmount ts id := by
  intro ts
  induction ts with
  | nil => intro s id _; simp [targetAmount]
  | cons t rest ih =>
    intro s id hts
    simp only [List.foldl_cons]
    rw [ih _ _ (fun u hu => hts u (List.mem_cons_of_mem _ hu))]
    rw [traverse_req_link B rank hd hpf fuel t.id t.amount s id (hts t (List.mem_cons_self _ _))]
    simp only [targetAmount, List.map_cons, List.sum_cons]
    have : (if t.id = id then t.amount else 0)
        = (List.map (fun u => if u.id = id then u.amount else 0) [t]).sum := by simp
    ring

/-! ### Uniqueness of node names and per-node readings -/

/-- Names of the stored nodes, in insertion order. -/
def nodeNames (ns : List SankeyNode) : List String := ns.map (fun n => n.name)

lemma nodeNames_addReq (ns : List SankeyNode) (itemId : String) (a : ℚ) :
    nodeNames (addReq ns itemId a) = nodeNames ns := by
  induction ns with
  | nil => rfl
  | cons n ns ih =>
    simp only [addReq]
    split
    · rfl
    · simp only [nodeNames, List.map_cons] at *
      rw [ih]

lemma nodup_nodeNames_ensureNode (ns : List SankeyNode) (itemId : String)
    (res : Option FindResult) (h : (nodeNames ns).Nodup) :
    (nodeNames (ensureNode ns itemId res)).Nodup := by
  unfold ensureNode
  split
  · exact h
  · next hany =>
    have hnot : itemId ∉ nodeNames ns := by
      intro hmem
      apply hany
      simp only [nodeNames, List.mem_map] at hmem
      obtain ⟨n, hn, hname⟩ := hmem
      exact List.any_eq_true.2 ⟨n, hn, by simp [hname]⟩
    simp only [nodeNames, List.map_append, List.map_cons, List.map_nil, freshNode]
    exact List.Nodup.append h (by simp) (by
      intro x hx hx'
      simp only [List.mem_singleton] at hx'
      exact hnot (hx' ▸ hx))

lemma nodup_nodeNames_nodePhase (B : Buildings) (itemId : String) (a : ℚ) (s : CalcState)
    (h : (nodeNames s.nodes).Nodup) :
    (nodeNames (nodePhase B itemId a s).nodes).Nodup := by
  unfold nodePhase
  simp only [nodeNames_addReq]
  exact nodup_nodeNames_ensureNode _ _ _ h

lemma nodup_nodeNames_traverse (B : Buildings) :
    ∀ fuel itemId a s, (nodeNames s.nodes).Nodup →
      (nodeNames (traverse B fuel itemId a s).nodes).Nodup := by
  intro fuel
  induction fuel with
  | zero => intro itemId a s h; exact h
  | succ fuel ih =>
    intro itemId a s h
    cases hfr : findRecipe B itemId with
    | none =>
      rw [traverse_succ_raw _ _ _ _ _ hfr]
      exact nodup_nodeNames_nodePhase B itemId a s h
    | some r =>
      rw [traverse_succ_recipe _ _ _ _ _ _ hfr]
      have main : ∀ (L : List ItemRate) (s' : CalcState), (nodeNames s'.nodes).Nodup →
          (nodeNames ((L.foldl
            (traverseStep B fuel itemId r.recipe.output.amount_per_minute a)) s').nodes).Nodup := by
        intro L
        induction L with
        | nil => intro s' h'; exact h'
        | cons inp rest ihL =>
          intro s' h'
          simp only [List.foldl_cons]
          apply ihL
          exact ih inp.id _ _ h'
      exact main r.recipe.inputs _ (nodup_nodeNames_nodePhase B itemId a s h)

lemma reqSum_eq_zero_of_not_mem (ns : List SankeyNode) (id : String)
    (h : id ∉ nodeNames ns) : reqSum ns id = 0 := by
  induction ns with
  | nil => rfl
  | cons n rest ih =>
    simp only [nodeNames, List.map_cons, List.mem_cons, not_or] at h
    simp only [reqSum, List.map_cons, List.sum_cons]
    rw [if_neg (fun hc => h.1 hc.symm)]
    have := ih (by simpa [nodeNames] using h.2)
    simp only [reqSum] at this
    rw [this]
    ring

lemma requiredAmount_eq_reqSum (ns : List SankeyNode) (n : SankeyNode)
    (hdup : (nodeNames ns).Nodup) (hn : n ∈ ns) :
    n.requiredAmount = reqSum ns n.name := by
  induction ns with
  | nil => simp at hn
  | cons m rest ih =>
    simp only [nodeNames, List.map_cons, List.nodup_cons] at hdup
    rcases List.mem_cons.1 hn with heq | hmem
    · subst heq
      have hnm : n.name ∉ nodeNames rest := hdup.1
      have hz := reqSum_eq_zero_of_not_mem rest n.name hnm
      simp only [reqSum] at hz
      simp only [reqSum, List.map_cons, List.sum_cons, if_pos rfl]
      rw [hz]
      simp
    · have hmn : m.name ≠ n.name := by
        intro hc
        exact hdup.1 (hc ▸ (List.mem_map.2 ⟨n, hmem, rfl⟩))
      simp only [reqSum, List.map_cons, List.sum_cons, if_neg hmn]
      have := ih (by simpa [nodeNames] using hdup.2) hmem
      simp only [reqSum] at this
      rw [this]
      ring

/-! ### Reading the packaged result -/

lemma finishCalc_nodes (s : CalcState) : (finishCalc s).nodes = s.nodes := rfl

lemma sourceSum_finishCalc (s : CalcState) (id : String) :
    sourceSum (finishCalc s).links id = linkFromSum s.links id := by
  simp only [sourceSum, finishCalc, linkFromSum, List.map_map]
  rfl

/-! ### Concrete helper facts about the smelter catalog -/

lemma smelter_findRecipe (id : String) :
    findRecipe smelterCatalog id
      = if "bar" = id then some ⟨⟨⟨"bar", 1⟩, [⟨"ore", 1⟩]⟩, "smelter", "Smelter"⟩ else none := by
  by_cases h : "bar" = id <;> simp [findRecipe, findRecipeIn, smelterCatalog, h]

lemma smelter_acyclic : AcyclicCatalog smelterCatalog := by
  refine ⟨fun id => if id = "bar" then 1 else 0, ?_, ?_⟩
  · intro id
    have h2 : sufficientFuel smelterCatalog = 2 := by
      simp [sufficientFuel, recipeCount, smelterCatalog]
    rw [h2]
    by_cases h : id = "bar" <;> simp [h]
  · intro id res h
    rw [smelter_findRecipe] at h
    split at h
    · next heq =>
      cases h
      intro inp hi
      simp only [List.mem_singleton] at hi
      subst hi
      rw [← heq]
      decide
    · cases h

lemma smelter_pipefree : PipeFreeCatalog smelterCatalog := by decide

/-- The raw-material node of the smelter example, as
`calculateRequirements` builds it. -/
def oreExampleNode : SankeyNode :=
  { name := "ore", category := "raw", machineName := "Source", outputPerMachine := none,
    requiredAmount := 10 }

/-- C1, as literally stated, is false on the code: in the spec's own
smelter example the node `"ore"` has required rate 10, but no returned
link has target `"ore"` (the link `ore → bar` stores the demand on its
source side) and `"ore"` is not an external target, so the claimed sum
is 0. -/
theorem C1_counterexample :
    ¬ (∀ n ∈ (calculateRequirements smelterCatalog smelterTargets).nodes,
        n.requiredAmount
          = targetSum (calculateRequirements smelterCatalog smelterTargets).links n.name
            + targetAmount smelterTargets n.name) := by
  intro hcl
  have hmem : oreExampleNode ∈ (calculateRequirements smelterCatalog smelterTargets).nodes := by
    simp [oreExampleNode, calculateRequirements, calcWithFuel, sufficientFuel, recipeCount,
      traverse, nodePhase, ensureNode, addReq, freshNode, findRecipe, findRecipeIn, setAdd,
      finishCalc, decodeKey, splitOnPipe, smelterCatalog, smelterTargets]
  have h2 := hcl _ hmem
  simp [oreExampleNode, targetSum, targetAmount, calculateRequirements, calcWithFuel, sufficientFuel, recipeCount,
    traverse, nodePhase, ensureNode, addReq, freshNode, findRecipe, findRecipeIn, setAdd,
    finishCalc, decodeKey, splitOnPipe, smelterCatalog, smelterTargets] at h2

/-- C1 (amended): for every acyclic catalog with `'|'`-free recipe item
ids and every target list, every returned node's `requiredAmount` equals
the sum of the values of all returned links whose SOURCE is that node
(those links carry the rates its direct consumers demand of it) plus the
total externally targeted rate on that item. -/
theorem C1_required_rate_conservation (B : Buildings) (targets : List Target)
    (hacyc : AcyclicCatalog B) (hpf : PipeFreeCatalog B) :
    ∀ n ∈ (calculateRequirements B targets).nodes,
      n.requiredAmount
        = sourceSum (calculateRequirements B targets).links n.name
          + targetAmount targets n.name := by
  obtain ⟨rank, hbound, hd⟩ := hacyc
  intro n hn
  have hnodup : (nodeNames (calcWithFuel B targets (sufficientFuel B)).nodes).Nodup := by
    unfold calcWithFuel
    have main : ∀ (ts : List Target) (s : CalcState), (nodeNames s.nodes).Nodup →
        (nodeNames
          (ts.foldl (fun s t => traverse B (sufficientFuel B) t.id t.amount s) s).nodes).Nodup := by
      intro ts
      induction ts with
      | nil => intro s h; exact h
      | cons t rest ih =>
        intro s h
        simp only [List.foldl_cons]
        exact ih _ (nodup_nodeNames_traverse B _ _ _ _ h)
    exact main targets ⟨[], []⟩ (by simp [nodeNames])
  have hmem : n ∈ (calcWithFuel B targets (sufficientFuel B)).nodes := hn
  rw [requiredAmount_eq_reqSum _ n hnodup hmem]
  have hsrc : sourceSum (calculateRequirements B targets).links n.name
      = linkFromSum (calcWithFuel B targets (sufficientFuel B)).links n.name :=
    sourceSum_finishCalc _ _
  rw [hsrc]
  have h2 := calcWithFuel_req_link B rank hd hpf (sufficientFuel B) targets ⟨[], []⟩ n.name
      (fun t _ => hbound t.id)
  unfold calcWithFuel
  rw [h2]
  simp [reqSum, linkFromSum]

/-- Witness for C1 (amended) at the smelter catalog and its target. -/
theorem C1_witness :
    oreExampleNode ∈ (calculateRequirements smelterCatalog smelterTargets).nodes
      ∧ oreExampleNode.requiredAmount
          = sourceSum (calculateRequirements smelterCatalog smelterTargets).links
              oreExampleNode.name
            + targetAmount smelterTargets oreExampleNode.name :=
  ⟨by
    simp [oreExampleNode, calculateRequirements, calcWithFuel, sufficientFuel, recipeCount,
      traverse, nodePhase, ensureNode, addReq, freshNode, findRecipe, findRecipeIn, setAdd,
      finishCalc, decodeKey, splitOnPipe, smelterCatalog, smelterTargets],
    C1_required_rate_conservation smelterCatalog smelterTargets smelter_acyclic
      smelter_pipefree oreExampleNode
      (by
        simp [oreExampleNode, calculateRequirements, calcWithFuel, sufficientFuel,
          recipeCount, traverse, nodePhase, ensureNode, addReq, freshNode, findRecipe,
          findRecipeIn, setAdd, finishCalc, decodeKey, splitOnPipe, smelterCatalog,
          smelterTargets])⟩

/-! ### Linearity of demand resolution in the target rate (claim C4) -/

/-- Demand-propagation coefficient: the factor by which one unit of
demanded rate at `root` contributes to the accumulated required rate of
`id`, at a given fuel.  It mirrors the recursion of `traverse`. -/
def nodeCoeff (B : Buildings) : ℕ → String → String → ℚ
  | 0, _, _ => 0
  | fuel + 1, root, id =>
    (if root = id then 1 else 0) +
      match findRecipe B root with
      | none => 0
      | some r =>
        (r.recipe.inputs.map (fun inp =>
          (inp.amount_per_minute / r.recipe.output.amount_per_minute)
            * nodeCoeff B fuel inp.id id)).sum

/-- Edge coefficient: the factor by which one unit of demanded rate at
`root` contributes to the merged value of the link whose decoded
(source, target) pair is `p`, at a given fuel. -/
def linkCoeff (B : Buildings) : ℕ → String → String × String → ℚ
  | 0, _, _ => 0
  | fuel + 1, root, p =>
    match findRecipe B root with
    | none => 0
    | some r =>
      (r.recipe.inputs.map (fun inp =>
        (if decodeKey (inp.id ++ "|" ++ root) = p
          then inp.amount_per_minute / r.recipe.output.amount_per_minute else 0)
        + (inp.amount_per_minute / r.recipe.output.amount_per_minute)
            * linkCoeff B fuel inp.id p)).sum

/-- Sum of the stored link values whose decoded key equals a pair. -/
def pairValSum (links : List (String × ℚ)) (p : String × String) : ℚ :=
  (links.map (fun kv => if decodeKey kv.1 = p then kv.2 else 0)).sum

/-- Sum of the returned link values on a given (source, target) pair. -/
def linkPairSum (links : List SankeyLink) (p : String × String) : ℚ :=
  (links.map (fun l => if (l.source, l.target) = p then l.value else 0)).sum

lemma pairValSum_setAdd (L : List (String × ℚ)) (k : String) (v : ℚ) (p : String × String) :
    pairValSum (setAdd L k v) p
      = pairValSum L p + (if decodeKey k = p then v else 0) := by
  induction L with
  | nil => simp [setAdd, pairValSum]
  | cons kv rest ih =>
    obtain ⟨k', w⟩ := kv
    simp only [setAdd]
    by_cases hk : k' = k
    · subst hk
      rw [if_pos rfl]
      simp only [pairValSum, List.map_cons, List.sum_cons]
      split <;> ring
    · rw [if_neg hk]
      simp only [pairValSum, List.map_cons, List.sum_cons] at *
      rw [ih]; ring

lemma sum_map_mul_left {α : Type} (L : List α) (f : α → ℚ) (c : ℚ) :
    (L.map (fun x => c * f x)).sum = c * (L.map f).sum := by
  induction L with
  | nil => simp
  | cons x xs ih => simp [ih, mul_add]

lemma foldl_reqSum_coeff (B : Buildings) (fuel : ℕ) (itemId : String) (outR a : ℚ)
    (ih : ∀ i a s id, reqSum (traverse B fuel i a s).nodes id
        = reqSum s.nodes id + a * nodeCoeff B fuel i id) :
    ∀ (L : List ItemRate) (s : CalcState) (id : String),
      reqSum ((L.foldl (traverseStep B fuel itemId outR a)) s).nodes id
        = reqSum s.nodes id
          + (L.map (fun inp =>
              (inp.amount_per_minute * (a / outR)) * nodeCoeff B fuel inp.id id)).sum := by
  intro L
  induction L with
  | nil => intro s id; simp
  | cons inp rest ihL =>
    intro s id
    simp only [List.foldl_cons]
    rw [ihL]
    have hstep : traverseStep B fuel itemId outR a s inp
        = traverse B fuel inp.id (inp.amount_per_minute * (a / outR))
            { s with
              links := setAdd s.links (inp.id ++ "|" ++ itemId)
                (inp.amount_per_minute * (a / outR)) } := rfl
    rw [hstep, ih]
    simp only [List.map_cons, List.sum_cons]
    ring

lemma traverse_reqSum_coeff (B : Buildings) :
    ∀ fuel i a s id, reqSum (traverse B fuel i a s).nodes id
      = reqSum s.nodes id + a * nodeCoeff B fuel i id := by
  intro fuel
  induction fuel with
  | zero => intro i a s id; simp [traverse_zero, nodeCoeff]
  | succ fuel ih =>
    intro i a s id
    cases hfr : findRecipe B i with
    | none =>
      rw [traverse_succ_raw _ _ _ _ _ hfr, reqSum_nodePhase]
      simp only [nodeCoeff, hfr]
      split <;> ring
    | some r =>
      rw [traverse_succ_recipe _ _ _ _ _ _ hfr,
        foldl_reqSum_coeff B fuel i r.recipe.output.amount_per_minute a ih, reqSum_nodePhase]
      simp only [nodeCoeff, hfr]
      have hmap : (r.recipe.inputs.map (fun inp =>
            (inp.amount_per_minute * (a / r.recipe.output.amount_per_minute))
              * nodeCoeff B fuel inp.id id)).sum
          = a * (r.recipe.inputs.map (fun inp =>
              (inp.amount_per_minute / r.recipe.output.amount_per_minute)
                * nodeCoeff B fuel inp.id id)).sum := by
        rw [← sum_map_mul_left]
        congr 1
        apply List.map_congr_left
        intro inp _
        ring
      rw [hmap]
      split <;> ring

lemma foldl_pairSum_coeff (B : Buildings) (fuel : ℕ) (itemId : String) (outR a : ℚ)
    (ih : ∀ i a s p, pairValSum (traverse B fuel i a s).links p
        = pairValSum s.links p + a * linkCoeff B fuel i p) :
    ∀ (L : List ItemRate) (s : CalcState) (p : String × String),
      pairValSum ((L.foldl (traverseStep B fuel itemId outR a)) s).links p
        = pairValSum s.links p
          + (L.map (fun inp =>
              (if decodeKey (inp.id ++ "|" ++ itemId) = p
                then inp.amount_per_minute * (a / outR) else 0)
              + (inp.amount_per_minute * (a / outR)) * linkCoeff B fuel inp.id p)).sum := by
  intro L
  induction L with
  | nil => intro s p; simp
  | cons inp rest ihL =>
    intro s p
    simp only [List.foldl_cons]
    rw [ihL]
    have hstep : traverseStep B fuel itemId outR a s inp
        = traverse B fuel inp.id (inp.amount_per_minute * (a / outR))
            { s with
              links := setAdd s.links (inp.id ++ "|" ++ itemId)
                (inp.amount_per_minute * (a / outR)) } := rfl
    rw [hstep, ih]
    simp only [pairValSum_setAdd, List.map_cons, List.sum_cons]
    ring

lemma traverse_pairSum_coeff (B : Buildings) :
    ∀ fuel i a s p, pairValSum (traverse B fuel i a s).links p
      = pairValSum s.links p + a * linkCoeff B fuel i p := by
  intro fuel
  induction fuel with
  | zero => intro i a s p; simp [traverse_zero, linkCoeff]
  | succ fuel ih =>
    intro i a s p
    cases hfr : findRecipe B i with
    | none =>
      rw [traverse_succ_raw _ _ _ _ _ hfr]
      simp only [linkCoeff, hfr, nodePhase_links]
      ring
    | some r =>
      rw [traverse_succ_recipe _ _ _ _ _ _ hfr,
        foldl_pairSum_coeff B fuel i r.recipe.output.amount_per_minute a ih]
      simp only [linkCoeff, hfr, nodePhase_links]
      have hmap : (r.recipe.inputs.map (fun inp =>
            (if decodeKey (inp.id ++ "|" ++ i) = p
              then inp.amount_per_minute * (a / r.recipe.output.amount_per_minute) else 0)
            + (inp.amount_per_minute * (a / r.recipe.output.amount_per_minute))
                * linkCoeff B fuel inp.id p)).sum
          = a * (r.recipe.inputs.map (fun inp =>
              (if decodeKey (inp.id ++ "|" ++ i) = p
                then inp.amount_per_minute / r.recipe.output.amount_per_minute else 0)
              + (inp.amount_per_minute / r.recipe.output.amount_per_minute)
                  * linkCoeff B fuel inp.id p)).sum := by
        rw [← sum_map_mul_left]
        congr 1
        apply List.map_congr_left
        intro inp _
        split <;> ring
      rw [hmap]

lemma linkPairSum_finishCalc (s : CalcState) (p : String × String) :
    linkPairSum (finishCalc s).links p = pairValSum s.links p := by
  simp only [linkPairSum, finishCalc, pairValSum, List.map_map]
  rfl

lemma calc_single_req (B : Buildings) (item : String) (r : ℚ) (id : String) :
    reqSum (calculateRequirements B [⟨item, r⟩]).nodes id
      = r * nodeCoeff B (sufficientFuel B) item id := by
  unfold calculateRequirements calcWithFuel
  rw [finishCalc_nodes]
  simp only [List.foldl_cons, List.foldl_nil]
  rw [traverse_reqSum_coeff]
  simp [reqSum]

lemma calc_single_pair (B : Buildings) (item : String) (r : ℚ) (p : String × String) :
    linkPairSum (calculateRequirements B [⟨item, r⟩]).links p
      = r * linkCoeff B (sufficientFuel B) item p := by
  unfold calculateRequirements calcWithFuel
  rw [linkPairSum_finishCalc]
  simp only [List.foldl_cons, List.foldl_nil]
  rw [traverse_pairSum_coeff]
  simp [pairValSum]

/-- C4: demand resolution is additive in the target rate, over exact
arithmetic.  Resolving the single target `(item, r1)` and `(item, r2)`
separately and summing, per item name, the accumulated required rates
and, per (source, target) pair, the merged link values gives exactly the
result of a single run on `(item, r1 + r2)`. -/
theorem C4_additivity (B : Buildings) (item : String) (r1 r2 : ℚ)
    (hacyc : AcyclicCatalog B) :
    (∀ id, reqSum (calculateRequirements B [⟨item, r1⟩]).nodes id
            + reqSum (calculateRequirements B [⟨item, r2⟩]).nodes id
          = reqSum (calculateRequirements B [⟨item, r1 + r2⟩]).nodes id) ∧
    (∀ p, linkPairSum (calculateRequirements B [⟨item, r1⟩]).links p
            + linkPairSum (calculateRequirements B [⟨item, r2⟩]).links p
          = linkPairSum (calculateRequirements B [⟨item, r1 + r2⟩]).links p) := by
  constructor
  · intro id
    rw [calc_single_req, calc_single_req, calc_single_req]
    ring
  · intro p
    rw [calc_single_pair, calc_single_pair, calc_single_pair]
    ring

/-- Witness for C4 at the smelter catalog with rates 3 and 4. -/
theorem C4_witness :
    (∀ id, reqSum (calculateRequirements smelterCatalog [⟨"bar", 3⟩]).nodes id
            + reqSum (calculateRequirements smelterCatalog [⟨"bar", 4⟩]).nodes id
          = reqSum (calculateRequirements smelterCatalog [⟨"bar", 3 + 4⟩]).nodes id) ∧
    (∀ p, linkPairSum (calculateRequirements smelterCatalog [⟨"bar", 3⟩]).links p
            + linkPairSum (calculateRequirements smelterCatalog [⟨"bar", 4⟩]).links p
          = linkPairSum (calculateRequirements smelterCatalog [⟨"bar", 3 + 4⟩]).links p) :=
  C4_additivity smelterCatalog "bar" 3 4 smelter_acyclic

/-! ### Fuel stability under acyclicity and divergence on cycles (claim C8) -/

lemma traverse_fuel_congr (B : Buildings) (rank : String → ℕ) (hd : RankDescent B rank) :
    ∀ fuel fuel' itemId a s, rank itemId < fuel → rank itemId < fuel' →
      traverse B fuel itemId a s = traverse B fuel' itemId a s := by
  intro fuel
  induction fuel with
  | zero => intro fuel' i a s h _; exact absurd h (Nat.not_lt_zero _)
  | succ fuel ih =>
    intro fuel' i a s h h'
    cases fuel' with
    | zero => exact absurd h' (Nat.not_lt_zero _)
    | succ fuel' =>
      cases hfr : findRecipe B i with
      | none => rw [traverse_succ_raw _ _ _ _ _ hfr, traverse_succ_raw _ _ _ _ _ hfr]
      | some r =>
        rw [traverse_succ_recipe _ _ _ _ _ _ hfr, traverse_succ_recipe _ _ _ _ _ _ hfr]
        have hinp : ∀ inp ∈ r.recipe.inputs, rank inp.id < fuel ∧ rank inp.id < fuel' := by
          intro inp hi
          have h1 := hd i r hfr inp hi
          omega
        have main : ∀ (L : List ItemRate) (s' : CalcState),
            (∀ inp ∈ L, rank inp.id < fuel ∧ rank inp.id < fuel') →
            L.foldl (traverseStep B fuel i r.recipe.output.amount_per_minute a) s'
              = L.foldl (traverseStep B fuel' i r.recipe.output.amount_per_minute a) s' := by
          intro L
          induction L with
          | nil => intro s' _; rfl
          | cons inp rest ihL =>
            intro s' hL
            simp only [List.foldl_cons]
            have hstep : traverseStep B fuel i r.recipe.output.amount_per_minute a s' inp
                = traverseStep B fuel' i r.recipe.output.amount_per_minute a s' inp := by
              unfold traverseStep
              exact ih fuel' inp.id _ _ (hL inp (List.mem_cons_self _ _)).1
                (hL inp (List.mem_cons_self _ _)).2
            rw [hstep]
            exact ihL _ (fun u hu => hL u (List.mem_cons_of_mem _ hu))
        exact main r.recipe.inputs _ hinp

/-- A one-recipe cyclic catalog: producing `"loop"` consumes `"loop"`
itself at the same rate. -/
def loopCatalog : Buildings :=
  [{ id := "gen", name := "Generator",
     recipes := [{ output := ⟨"loop", 1⟩, inputs := [⟨"loop", 1⟩] }] }]

lemma loop_findRecipe :
    findRecipe loopCatalog "loop"
      = some ⟨⟨⟨"loop", 1⟩, [⟨"loop", 1⟩]⟩, "gen", "Generator"⟩ := by
  simp [findRecipe, findRecipeIn, loopCatalog]

lemma loop_growth : ∀ (fuel : ℕ) (s : CalcState),
    reqSum (traverse loopCatalog fuel "loop" 1 s).nodes "loop"
      = reqSum s.nodes "loop" + fuel := by
  intro fuel
  induction fuel with
  | zero => intro s; simp [traverse_zero]
  | succ fuel ih =>
    intro s
    rw [traverse_succ_recipe _ _ _ _ _ _ loop_findRecipe]
    simp only [List.foldl_cons, List.foldl_nil]
    have hstep : ∀ s' : CalcState,
        traverseStep loopCatalog fuel "loop" (1 : ℚ) (1 : ℚ) s' ⟨"loop", 1⟩
          = traverse loopCatalog fuel "loop" 1
              { s' with links := setAdd s'.links ("loop" ++ "|" ++ "loop") 1 } := by
      intro s'
      unfold traverseStep
      norm_num
    rw [hstep, ih]
    have hnp : reqSum (nodePhase loopCatalog "loop" 1 s).nodes "loop"
        = reqSum s.nodes "loop" + 1 := by
      rw [reqSum_nodePhase]
      simp
    calc reqSum (nodePhase loopCatalog "loop" 1 s).nodes "loop" + (fuel : ℚ)
        = reqSum s.nodes "loop" + 1 + fuel := by rw [hnp]
      _ = reqSum s.nodes "loop" + ((fuel : ℕ) + 1 : ℕ) := by push_cast; ring

/-- C8: `traverse` has no cycle guard, so termination holds exactly
under acyclicity.  First conjunct: for every acyclic catalog the result
stabilises — any fuel at least `sufficientFuel B` computes the same
state, i.e. the unbounded recursion terminates with that value.  Second
conjunct: on the cyclic catalog `loopCatalog` the accumulated rate of
`"loop"` equals the fuel spent, for every fuel, so no finite recursion
depth suffices — the source recurses unboundedly. -/
theorem C8_termination :
    (∀ (B : Buildings) (targets : List Target), AcyclicCatalog B →
      ∀ fuel, sufficientFuel B ≤ fuel →
        calcWithFuel B targets fuel = calcWithFuel B targets (sufficientFuel B)) ∧
    (∀ fuel, reqSum (traverse loopCatalog fuel "loop" 1 ⟨[], []⟩).nodes "loop" = fuel) := by
  constructor
  · rintro B targets ⟨rank, hbound, hd⟩ fuel hf
    unfold calcWithFuel
    have main : ∀ (ts : List Target) (s : CalcState),
        ts.foldl (fun s t => traverse B fuel t.id t.amount s) s
          = ts.foldl (fun s t => traverse B (sufficientFuel B) t.id t.amount s) s := by
      intro ts
      induction ts with
      | nil => intro s; rfl
      | cons t rest ih =>
        intro s
        simp only [List.foldl_cons]
        rw [traverse_fuel_congr B rank hd fuel (sufficientFuel B) t.id t.amount s
          (lt_of_lt_of_le (hbound t.id) hf) (hbound t.id), ih]
    exact main targets _
  · intro fuel
    rw [loop_growth fuel ⟨[], []⟩]
    simp [reqSum]

/-- Witness for C8's stabilisation conjunct at the smelter catalog. -/
theorem C8_witness :
    calcWithFuel smelterCatalog smelterTargets 5
      = calcWithFuel smelterCatalog smelterTargets (sufficientFuel smelterCatalog) :=
  C8_termination.1 smelterCatalog smelterTargets smelter_acyclic 5 (by decide)

/-! ### Well-formedness of the returned links (claim C9) -/

lemma nodeNames_sub_ensureNode (ns : List SankeyNode) (itemId : String)
    (res : Option FindResult) : nodeNames ns ⊆ nodeNames (ensureNode ns itemId res) := by
  unfold ensureNode
  split
  · exact fun x hx => hx
  · intro x hx
    simp only [nodeNames, List.map_append]
    exact List.mem_append_left _ hx

lemma mem_nodeNames_nodePhase (B : Buildings) (itemId : String) (a : ℚ) (s : CalcState) :
    itemId ∈ nodeNames (nodePhase B itemId a s).nodes := by
  unfold nodePhase
  rw [nodeNames_addReq]
  have h := any_name_ensureNode s.nodes itemId (findRecipe B itemId)
  obtain ⟨n, hn, hname⟩ := List.any_eq_true.1 h
  simp only [decide_eq_true_eq] at hname
  exact List.mem_map.2 ⟨n, hn, hname⟩

lemma nodeNames_sub_nodePhase (B : Buildings) (itemId : String) (a : ℚ) (s : CalcState) :
    nodeNames s.nodes ⊆ nodeNames (nodePhase B itemId a s).nodes := by
  unfold nodePhase
  rw [nodeNames_addReq]
  exact nodeNames_sub_ensureNode _ _ _

lemma nodeNames_sub_traverse (B : Buildings) :
    ∀ fuel itemId a s, nodeNames s.nodes ⊆ nodeNames (traverse B fuel itemId a s).nodes := by
  intro fuel
  induction fuel with
  | zero => intro itemId a s; exact fun x hx => hx
  | succ fuel ih =>
    intro itemId a s
    cases hfr : findRecipe B itemId with
    | none =>
      rw [traverse_succ_raw _ _ _ _ _ hfr]
      exact nodeNames_sub_nodePhase _ _ _ _
    | some r =>
      rw [traverse_succ_recipe _ _ _ _ _ _ hfr]
      have main : ∀ (L : List ItemRate) (s' : CalcState),
          nodeNames s'.nodes ⊆ nodeNames ((L.foldl
            (traverseStep B fuel itemId r.recipe.output.amount_per_minute a)) s').nodes := by
        intro L
        induction L with
        | nil => intro s'; exact fun x hx => hx
        | cons inp rest ihL =>
          intro s'
          simp only [List.foldl_cons]
          intro x hx
          apply ihL
          exact ih inp.id _ _ hx
      exact fun x hx => main r.recipe.inputs _ (nodeNames_sub_nodePhase B itemId a s hx)

lemma mem_nodeNames_traverse_self (B : Buildings) :
    ∀ fuel itemId a s, 0 < fuel → itemId ∈ nodeNames (traverse B fuel itemId a s).nodes := by
  intro fuel
  cases fuel with
  | zero => intro itemId a s h; exact absurd h (Nat.lt_irrefl 0)
  | succ fuel =>
    intro itemId a s _
    cases hfr : findRecipe B itemId with
    | none =>
      rw [traverse_succ_raw _ _ _ _ _ hfr]
      exact mem_nodeNames_nodePhase _ _ _ _
    | some r =>
      rw [traverse_succ_recipe _ _ _ _ _ _ hfr]
      have main : ∀ (L : List ItemRate) (s' : CalcState),
          nodeNames s'.nodes ⊆ nodeNames ((L.foldl
            (traverseStep B fuel itemId r.recipe.output.amount_per_minute a)) s').nodes := by
        intro L
        induction L with
        | nil => intro s'; exact fun x hx => hx
        | cons inp rest ihL =>
          intro s'
          simp only [List.foldl_cons]
          intro x hx
          exact ihL _ (nodeNames_sub_traverse B fuel inp.id _ _ hx)
      exact main r.recipe.inputs _ (mem_nodeNames_nodePhase B itemId a s)

lemma mem_setAdd (L : List (String × ℚ)) (k : String) (v : ℚ) (kv : String × ℚ)
    (h : kv ∈ setAdd L k v) : kv.1 = k ∨ kv ∈ L := by
  induction L with
  | nil =>
    simp only [setAdd, List.mem_singleton] at h
    subst h
    exact Or.inl rfl
  | cons hd rest ih =>
    obtain ⟨k', w⟩ := hd
    simp only [setAdd] at h
    split at h
    · next hk =>
      subst hk
      rcases List.mem_cons.1 h with heq | hmem
      · subst heq; exact Or.inl rfl
      · exact Or.inr (List.mem_cons_of_mem _ hmem)
    · rcases List.mem_cons.1 h with heq | hmem
      · subst heq; exact Or.inr (List.mem_cons_self _ _)
      · rcases ih hmem with h1 | h2
        · exact Or.inl h1
        · exact Or.inr (List.mem_cons_of_mem _ h2)

lemma setAdd_keys (L : List (String × ℚ)) (k : String) (v : ℚ) :
    (setAdd L k v).map Prod.fst
      = if k ∈ L.map Prod.fst then L.map Prod.fst else L.map Prod.fst ++ [k] := by
  induction L with
  | nil => simp [setAdd]
  | cons hd rest ih =>
    obtain ⟨k', w⟩ := hd
    simp only [setAdd]
    by_cases hk : k' = k
    · subst hk
      rw [if_pos rfl]
      simp
    · rw [if_neg hk]
      simp only [List.map_cons]
      rw [ih]
      by_cases hmem : k ∈ rest.map Prod.fst
      · rw [if_pos hmem, if_pos (List.mem_cons_of_mem _ hmem)]
      · rw [if_neg hmem, if_neg (by
          intro hc
          rcases List.mem_cons.1 hc with h1 | h2
          · exact hk h1.symm
          · exact hmem h2)]
        simp

lemma nodupKeys_setAdd (L : List (String × ℚ)) (k : String) (v : ℚ)
    (h : (L.map Prod.fst).Nodup) : ((setAdd L k v).map Prod.fst).Nodup := by
  rw [setAdd_keys]
  split
  · exact h
  · next hmem =>
    exact List.Nodup.append h (by simp) (by
      intro x hx hx'
      simp only [List.mem_singleton] at hx'
      exact hmem (hx' ▸ hx))

/-- Every stored link key decomposes as `a ++ "|" ++ b` with both halves
free of the separator. -/
def KeysShape (links : List (String × ℚ)) : Prop :=
  ∀ kv ∈ links, ∃ a b, kv.1 = a ++ "|" ++ b ∧ PipeFree a ∧ PipeFree b

lemma keysShape_setAdd (L : List (String × ℚ)) (a b : String) (v : ℚ)
    (h : KeysShape L) (ha : PipeFree a) (hb : PipeFree b) :
    KeysShape (setAdd L (a ++ "|" ++ b) v) := by
  intro kv hkv
  rcases mem_setAdd _ _ _ _ hkv with h1 | h2
  · exact ⟨a, b, h1, ha, hb⟩
  · exact h kv h2

lemma traverse_nodupKeys (B : Buildings) :
    ∀ fuel itemId a s, (s.links.map Prod.fst).Nodup →
      ((traverse B fuel itemId a s).links.map Prod.fst).Nodup := by
  intro fuel
  induction fuel with
  | zero => intro itemId a s h; exact h
  | succ fuel ih =>
    intro itemId a s h
    cases hfr : findRecipe B itemId with
    | none => rw [traverse_succ_raw _ _ _ _ _ hfr]; exact h
    | some r =>
      rw [traverse_succ_recipe _ _ _ _ _ _ hfr]
      have main : ∀ (L : List ItemRate) (s' : CalcState), (s'.links.map Prod.fst).Nodup →
          (((L.foldl (traverseStep B fuel itemId r.recipe.output.amount_per_minute a))
            s').links.map Prod.fst).Nodup := by
        intro L
        induction L with
        | nil => intro s' h'; exact h'
        | cons inp rest ihL =>
          intro s' h'
          simp only [List.foldl_cons]
          apply ihL
          exact ih inp.id _ _ (nodupKeys_setAdd _ _ _ h')
      exact main r.recipe.inputs _ h

lemma traverse_keysShape (B : Buildings) (hpf : PipeFreeCatalog B) :
    ∀ fuel itemId a s, PipeFree itemId → KeysShape s.links →
      KeysShape (traverse B fuel itemId a s).links := by
  intro fuel
  induction fuel with
  | zero => intro itemId a s _ h; exact h
  | succ fuel ih =>
    intro itemId a s hpfi h
    cases hfr : findRecipe B itemId with
    | none => rw [traverse_succ_raw _ _ _ _ _ hfr]; exact h
    | some r =>
      rw [traverse_succ_recipe _ _ _ _ _ _ hfr]
      have hin := findRecipe_input_pf B itemId r hpf hfr
      have main : ∀ (L : List ItemRate) (s' : CalcState), (∀ inp ∈ L, PipeFree inp.id) →
          KeysShape s'.links →
          KeysShape (((L.foldl
            (traverseStep B fuel itemId r.recipe.output.amount_per_minute a)) s').links) := by
        intro L
        induction L with
        | nil => intro s' _ h'; exact h'
        | cons inp rest ihL =>
          intro s' hL h'
          simp only [List.foldl_cons]
          apply ihL _ (fun u hu => hL u (List.mem_cons_of_mem _ hu))
          exact ih inp.id _ _ (hL inp (List.mem_cons_self _ _))
            (keysShape_setAdd _ _ _ _ h' (hL inp (List.mem_cons_self _ _)) hpfi)
      exact main r.recipe.inputs _ hin h

lemma traverse_keysMem (B : Buildings) (rank : String → ℕ) (hd : RankDescent B rank)
    (hpf : PipeFreeCatalog B) :
    ∀ fuel itemId a s, rank itemId < fuel → PipeFree itemId →
      (∀ kv ∈ s.links, (decodeKey kv.1).1 ∈ itemId :: nodeNames s.nodes
        ∧ (decodeKey kv.1).2 ∈ itemId :: nodeNames s.nodes) →
      ∀ kv ∈ (traverse B fuel itemId a s).links,
        (decodeKey kv.1).1 ∈ nodeNames (traverse B fuel itemId a s).nodes
        ∧ (decodeKey kv.1).2 ∈ nodeNames (traverse B fuel itemId a s).nodes := by
  intro fuel
  induction fuel with
  | zero => intro itemId a s h; exact absurd h (Nat.not_lt_zero _)
  | succ fuel ih =>
    intro itemId a s hr hpfi hpre
    have hresolve : ∀ x, x ∈ itemId :: nodeNames s.nodes →
        x ∈ nodeNames (nodePhase B itemId a s).nodes := by
      intro x hx
      rcases List.mem_cons.1 hx with heq | hmem
      · exact heq ▸ mem_nodeNames_nodePhase B itemId a s
      · exact nodeNames_sub_nodePhase B itemId a s hmem
    cases hfr : findRecipe B itemId with
    | none =>
      rw [traverse_succ_raw _ _ _ _ _ hfr]
      intro kv hkv
      have h := hpre kv hkv
      exact ⟨hresolve _ h.1, hresolve _ h.2⟩
    | some r =>
      rw [traverse_succ_recipe _ _ _ _ _ _ hfr]
      have hin := findRecipe_input_pf B itemId r hpf hfr
      have hrk : ∀ inp ∈ r.recipe.inputs, rank inp.id < fuel := by
        intro inp hi
        have := hd itemId r hfr inp hi
        omega
      have hs1 : ∀ kv ∈ (nodePhase B itemId a s).links,
          (decodeKey kv.1).1 ∈ nodeNames (nodePhase B itemId a s).nodes
          ∧ (decodeKey kv.1).2 ∈ nodeNames (nodePhase B itemId a s).nodes := by
        intro kv hkv
        have h := hpre kv hkv
        exact ⟨hresolve _ h.1, hresolve _ h.2⟩
      have main : ∀ (L : List ItemRate) (s' : CalcState),
          (∀ inp ∈ L, rank inp.id < fuel ∧ PipeFree inp.id) →
          itemId ∈ nodeNames s'.nodes →
          (∀ kv ∈ s'.links, (decodeKey kv.1).1 ∈ nodeNames s'.nodes
            ∧ (decodeKey kv.1).2 ∈ nodeNames s'.nodes) →
          ∀ kv ∈ (((L.foldl
              (traverseStep B fuel itemId r.recipe.output.amount_per_minute a)) s').links),
            (decodeKey kv.1).1 ∈ nodeNames (((L.foldl
              (traverseStep B fuel itemId r.recipe.output.amount_per_minute a)) s').nodes)
            ∧ (decodeKey kv.1).2 ∈ nodeNames (((L.foldl
              (traverseStep B fuel itemId r.recipe.output.amount_per_minute a)) s').nodes) := by
        intro L
        induction L with
        | nil => intro s' _ _ h'; exact h'
        | cons inp rest ihL =>
          intro s' hL hself hmem'
          simp only [List.foldl_cons]
          have hstep : traverseStep B fuel itemId r.recipe.output.amount_per_minute a s' inp
              = traverse B fuel inp.id
                  (inp.amount_per_minute * (a / r.recipe.output.amount_per_minute))
                  { s' with
                    links := setAdd s'.links (inp.id ++ "|" ++ itemId)
                      (inp.amount_per_minute * (a / r.recipe.output.amount_per_minute)) } := rfl
          rw [hstep]
          have hX : ∀ kv ∈ (traverse B fuel inp.id
              (inp.amount_per_minute * (a / r.recipe.output.amount_per_minute))
              { s' with
                links := setAdd s'.links (inp.id ++ "|" ++ itemId)
                  (inp.amount_per_minute * (a / r.recipe.output.amount_per_minute)) }).links,
              (decodeKey kv.1).1 ∈ nodeNames ((traverse B fuel inp.id
                (inp.amount_per_minute * (a / r.recipe.output.amount_per_minute))
                { s' with
                  links := setAdd s'.links (inp.id ++ "|" ++ itemId)
                    (inp.amount_per_minute * (a / r.recipe.output.amount_per_minute)) }).nodes)
              ∧ (decodeKey kv.1).2 ∈ nodeNames ((traverse B fuel inp.id
                (inp.amount_per_minute * (a / r.recipe.output.amount_per_minute))
                { s' with
                  links := setAdd s'.links (inp.id ++ "|" ++ itemId)
                    (inp.amount_per_minute * (a / r.recipe.output.amount_per_minute)) }).nodes) := by
            apply ih inp.id _ _ (hL inp (List.mem_cons_self _ _)).1
              (hL inp (List.mem_cons_self _ _)).2
            intro kv hkv
            rcases mem_setAdd _ _ _ _ hkv with hk | hold
            · rw [hk, decodeKey_encode _ _ (hL inp (List.mem_cons_self _ _)).2 hpfi]
              exact ⟨List.mem_cons_self _ _, List.mem_cons_of_mem _ hself⟩
            · have h := hmem' kv hold
              exact ⟨List.mem_cons_of_mem _ h.1, List.mem_cons_of_mem _ h.2⟩
          apply ihL _ (fun u hu => hL u (List.mem_cons_of_mem _ hu))
          · exact nodeNames_sub_traverse B fuel inp.id _ _ hself
          · exact hX
      exact main r.recipe.inputs _ (fun inp hi => ⟨hrk inp hi, hin inp hi⟩)
        (mem_nodeNames_nodePhase B itemId a s) hs1

/-- C9: provided no item id in the catalog or the target list contains
the separator `'|'`, every returned link's source and target are names
of nodes present in the returned node list, and the (source, target)
pairs of the returned links are pairwise distinct (each pair appears as
exactly one merged link).  The acyclicity hypothesis reflects that the
source only returns at all on acyclic catalogs. -/
theorem C9_links_wellformed (B : Buildings) (targets : List Target)
    (hacyc : AcyclicCatalog B) (hpf : PipeFreeCatalog B)
    (hpfT : ∀ t ∈ targets, PipeFree t.id) :
    (∀ l ∈ (calculateRequirements B targets).links,
        (∃ n ∈ (calculateRequirements B targets).nodes, n.name = l.source)
        ∧ (∃ n ∈ (calculateRequirements B targets).nodes, n.name = l.target)) ∧
    ((calculateRequirements B targets).links.map (fun l => (l.source, l.target))).Nodup := by
  obtain ⟨rank, hbound, hd⟩ := hacyc
  have main : ∀ (ts : List Target) (s : CalcState), (∀ t ∈ ts, PipeFree t.id) →
      (s.links.map Prod.fst).Nodup → KeysShape s.links →
      (∀ kv ∈ s.links, (decodeKey kv.1).1 ∈ nodeNames s.nodes
        ∧ (decodeKey kv.1).2 ∈ nodeNames s.nodes) →
      (((ts.foldl (fun s t => traverse B (sufficientFuel B) t.id t.amount s) s).links.map
          Prod.fst).Nodup
        ∧ KeysShape (ts.foldl (fun s t => traverse B (sufficientFuel B) t.id t.amount s) s).links
        ∧ ∀ kv ∈ (ts.foldl (fun s t => traverse B (sufficientFuel B) t.id t.amount s) s).links,
            (decodeKey kv.1).1
              ∈ nodeNames (ts.foldl (fun s t => traverse B (sufficientFuel B) t.id t.amount s)
                  s).nodes
            ∧ (decodeKey kv.1).2
              ∈ nodeNames (ts.foldl (fun s t => traverse B (sufficientFuel B) t.id t.amount s)
                  s).nodes) := by
    intro ts
    induction ts with
    | nil => intro s _ h1 h2 h3; exact ⟨h1, h2, h3⟩
    | cons t rest ih =>
      intro s hts h1 h2 h3
      simp only [List.foldl_cons]
      apply ih _ (fun u hu => hts u (List.mem_cons_of_mem _ hu))
      · exact traverse_nodupKeys B _ t.id t.amount s h1
      · exact traverse_keysShape B hpf _ t.id t.amount s (hts t (List.mem_cons_self _ _)) h2
      · exact traverse_keysMem B rank hd hpf _ t.id t.amount s (hbound t.id)
          (hts t (List.mem_cons_self _ _))
          (fun kv hkv => ⟨List.mem_cons_of_mem _ (h3 kv hkv).1,
            List.mem_cons_of_mem _ (h3 kv hkv).2⟩)
  have hres := main targets ⟨[], []⟩ hpfT (by simp) (by intro kv h; simp at h)
    (by intro kv h; simp at h)
  obtain ⟨hnodup, hshape, hmem⟩ := hres
  constructor
  · intro l hl
    simp only [calculateRequirements, finishCalc, calcWithFuel, List.mem_map] at hl
    obtain ⟨kv, hkv, rfl⟩ := hl
    have h := hmem kv hkv
    constructor
    · obtain ⟨n, hn, hname⟩ := List.mem_map.1 h.1
      exact ⟨n, hn, hname⟩
    · obtain ⟨n, hn, hname⟩ := List.mem_map.1 h.2
      exact ⟨n, hn, hname⟩
  · have hpw : (calcWithFuel B targets (sufficientFuel B)).links.Pairwise
        (fun x y => x.1 ≠ y.1) := by
      have := hnodup
      unfold List.Nodup at this
      exact List.pairwise_map.1 this
    simp only [calculateRequirements, finishCalc, List.map_map]
    have hpw2 : (calcWithFuel B targets (sufficientFuel B)).links.Pairwise
        (fun x y =>
          ((fun l => (l.source, l.target)) ∘
            (fun kv : String × ℚ =>
              (⟨(decodeKey kv.1).1, (decodeKey kv.1).2, kv.2⟩ : SankeyLink))) x
          ≠ ((fun l => (l.source, l.target)) ∘
            (fun kv : String × ℚ =>
              (⟨(decodeKey kv.1).1, (decodeKey kv.1).2, kv.2⟩ : SankeyLink))) y) := by
      refine hpw.imp_of_mem ?_
      intro x y hx hy hne hcontra
      obtain ⟨a, b, hxk, hxa, hxb⟩ := hshape x hx
      obtain ⟨a', b', hyk, hya, hyb⟩ := hshape y hy
      simp only [Function.comp] at hcontra
      rw [hxk, hyk, decodeKey_encode _ _ hxa hxb, decodeKey_encode _ _ hya hyb] at hcontra
      have hab : a = a' ∧ b = b' := by
        have h1 := congrArg Prod.fst hcontra
        have h2 := congrArg Prod.snd hcontra
        simp at h1 h2
        exact ⟨h1, h2⟩
      apply hne
      rw [hxk, hyk, hab.1, hab.2]
    exact List.pairwise_map.2 hpw2

/-- Witness for C9 at the smelter catalog. -/
theorem C9_witness :
    (∀ l ∈ (calculateRequirements smelterCatalog smelterTargets).links,
        (∃ n ∈ (calculateRequirements smelterCatalog smelterTargets).nodes, n.name = l.source)
        ∧ (∃ n ∈ (calculateRequirements smelterCatalog smelterTargets).nodes,
            n.name = l.target)) ∧
    ((calculateRequirements smelterCatalog smelterTargets).links.map
        (fun l => (l.source, l.target))).Nodup :=
  C9_links_wellformed smelterCatalog smelterTargets smelter_acyclic smelter_pipefree (by decide)

/-! ### Data model of the two partition optimizers

The spatial embedder (`d3-force`) and `Math.random` are external
collaborators of the partitioning core: the physics-relaxed positions
are injected as `pos`, the random shuffle of each k-means restart as
`shuffle`, and the genetic optimizer's random draws as oracle
functions.  Hypotheses on a claim state the corresponding contracts
(`Math.random` yields values in `[0,1)`, a JavaScript sort returns a
permutation). -/

/-- A machine node of the optimizer graph (`MachineNode` in
`types.ts`).  The simulation coordinates `x`, `y` carry the injected
embedding (the genetic optimizer never reads them and leaves them 0);
`clusterId` is `none` until an optimizer assigns it. -/
structure MachineNode where
  id : String
  name : String
  x : ℚ
  y : ℚ
  buildingId : String
  recipeOutputId : String
  clusterId : Option ℤ
  requiredAmount : ℚ
  outputPerMachine : Option ℚ
  machineName : String
  category : String
deriving DecidableEq, Repr

/-- A flow edge between machine nodes (`MachineLink` in `types.ts`),
kept in id form as the core never resolves endpoints to objects. -/
structure MachineLink where
  source : String
  target : String
  value : ℚ
deriving DecidableEq, Repr

/-- The summary statistics record of `OptimizerResult`. -/
structure OptStats where
  totalCrossFlow : ℚ
deriving DecidableEq, Repr

/-- The packaged optimizer output (`OptimizerResult` in `types.ts`);
the cluster grouping keeps first-appearance order of cluster ids. -/
structure OptimizerResult where
  nodes : List MachineNode
  links : List MachineLink
  clusters : List (ℤ × List MachineNode)
  stats : OptStats
deriving DecidableEq, Repr

/-- JavaScript `Map.set`: overwrite the first (unique) occurrence or
append a fresh key. -/
def mapSet {α : Type} : List (String × α) → String → α → List (String × α)
  | [], k, v => [(k, v)]
  | (k', w) :: rest, k, v =>
    if k' = k then (k, v) :: rest else (k', w) :: mapSet rest k v

/-- JavaScript `Map.get` on an association list with unique keys. -/
def mapGet {α : Type} : List (String × α) → String → Option α
  | [], _ => none
  | (k', v) :: rest, k => if k' = k then some v else mapGet rest k

/-- JavaScript `new Map(pairs)` lookup semantics: on duplicate keys the
LAST pair wins. -/
def lookupLast {α : Type} : List (String × α) → String → Option α
  | [], _ => none
  | (k', v) :: rest, k =>
    match lookupLast rest k with
    | some w => some w
    | none => if k' = k then some v else none

/-- Build a `MachineNode` from a resolved node plus its injected
embedding coordinate (the mapping in `optimizeLayout` followed by the
relaxation that writes `x` and `y`). -/
def toMachineNode (pos : String → ℚ × ℚ) (n : SankeyNode) : MachineNode :=
  { id := n.name, name := n.name, x := (pos n.name).1, y := (pos n.name).2,
    buildingId := n.category, recipeOutputId := n.name, clusterId := none,
    requiredAmount := n.requiredAmount, outputPerMachine := n.outputPerMachine,
    machineName := n.machineName, category := n.category }

/-- Build a `MachineNode` for the genetic optimizer (the mapping in
`runGeneticOptimization`); no simulation runs there, so the coordinate
fields are never read. -/
def toMachineNodeG (n : SankeyNode) : MachineNode :=
  { id := n.name, name := n.name, x := 0, y := 0,
    buildingId := n.category, recipeOutputId := n.name, clusterId := none,
    requiredAmount := n.requiredAmount, outputPerMachine := n.outputPerMachine,
    machineName := n.machineName, category := n.category }

/-! ### K-means clustering (`optimizeLayout`) -/

/-- Squared Euclidean distance (`dx*dx + dy*dy`). -/
def distSq (p c : ℚ × ℚ) : ℚ :=
  (p.1 - c.1) * (p.1 - c.1) + (p.2 - c.2) * (p.2 - c.2)

/-- JavaScript `d < minDist` where `minDist` starts as `Infinity`
(modelled `none`). -/
def closerThan (d : ℚ) : Option ℚ → Bool
  | none => true
  | some m => decide (d < m)

/-- The `centroids.forEach((c, idx) => ...)` scan for the nearest
centroid, carrying `(closest, minDist)` with `closest` starting at -1. -/
def nearestAux (p : ℚ × ℚ) : List (ℚ × ℚ) → ℕ → ℤ × Option ℚ → ℤ × Option ℚ
  | [], _, acc => acc
  | c :: cs, idx, acc =>
    nearestAux p cs (idx + 1)
      (if closerThan (distSq p c) acc.2 then ((idx : ℤ), some (distSq p c)) else acc)

/-- Index of the nearest centroid by squared distance, ties to the
lowest index; -1 only when there are no centroids at all. -/
def nearestIdx (centroids : List (ℚ × ℚ)) (p : ℚ × ℚ) : ℤ :=
  (nearestAux p centroids 0 (-1, none)).1

/-- Per-cluster accumulator (`clusterSums` entries). -/
structure SumAcc where
  x : ℚ
  y : ℚ
  count : ℕ
deriving DecidableEq, Repr

/-- The write `clusterSums[closest] += ...` at a signed index.  The
index is always valid when centroids are non-empty (JavaScript would
crash otherwise); an out-of-range index leaves the list unchanged so
the model stays total. -/
def bumpSums : List SumAcc → ℤ → ℚ → ℚ → List SumAcc
  | [], _, _, _ => []
  | sa :: rest, i, px, py =>
    if i = 0 then { x := sa.x + px, y := sa.y + py, count := sa.count + 1 } :: rest
    else sa :: bumpSums rest (i - 1) px py

/-- Accumulator of one `while` round: the fresh assignment map, the
per-cluster sums and the change flag. -/
structure RoundAcc where
  asg : List (String × ℤ)
  sums : List SumAcc
  changed : Bool
deriving Repr

/-- One k-means round: assign every item to its nearest centroid,
accumulate the cluster sums and detect membership changes against the
previous assignment. -/
def kmeansRound (items : List MachineNode) (centroids : List (ℚ × ℚ))
    (prev : List (String × ℤ)) : RoundAcc :=
  items.foldl
    (fun acc node =>
      let closest := nearestIdx centroids (node.x, node.y)
      { asg := mapSet acc.asg node.id closest
        sums := bumpSums acc.sums closest node.x node.y
        changed := acc.changed || decide (mapGet prev node.id ≠ some closest) })
    ⟨[], List.replicate centroids.length ⟨0, 0, 0⟩, false⟩

/-- Centroid recomputation: the mean of the assigned positions, or a
reset to the origin `(0, 0)` for a cluster with zero members. -/
def updateCentroids (sums : List SumAcc) : List (ℚ × ℚ) :=
  sums.map (fun c =>
    if 0 < c.count then (c.x / (c.count : ℚ), c.y / (c.count : ℚ)) else (0, 0))

/-- The bounded `while (hasChanged && iterations < 50)` loop, starting
from an empty previous assignment; stops early once no item changed
cluster. -/
def kmeansIter (items : List MachineNode) :
    ℕ → List (ℚ × ℚ) → List (String × ℤ) → List (String × ℤ)
  | 0, _, asg => asg
  | rem + 1, centroids, asg =>
    let r := kmeansRound items centroids asg
    if r.changed then kmeansIter items rem (updateCentroids r.sums) r.asg else r.asg

/-- Cross-cluster flow of an assignment: the transport part of a
restart's score. -/
def crossScore (links : List MachineLink) (asg : List (String × ℤ)) : ℚ :=
  links.foldl
    (fun acc l =>
      match mapGet asg l.source, mapGet asg l.target with
      | some sc, some tc => if sc ≠ tc then acc + l.value else acc
      | _, _ => acc) 0

/-- The fixed 10000 penalty for each split-constraint pair sharing a
cluster. -/
def splitPenalty (splitC : List (String × String)) (asg : List (String × ℤ)) : ℚ :=
  splitC.foldl
    (fun acc ab =>
      match mapGet asg ab.1, mapGet asg ab.2 with
      | some ca, some cb => if ca = cb then acc + 10000 else acc
      | _, _ => acc) 0

/-- One k-means restart: seed the centroids from the first `k`
positions of the shuffled item list, run the bounded loop, and score
the resulting assignment. -/
def kmeansPass (items : List MachineNode) (links : List MachineLink)
    (splitC : List (String × String)) (k : ℕ) (shuffled : List MachineNode) :
    List (String × ℤ) × ℚ :=
  let centroids := (shuffled.take k).map (fun n => (n.x, n.y))
  let asg := kmeansIter items 50 centroids []
  (asg, crossScore links asg + splitPenalty splitC asg)

/-- JavaScript `x < best` where `best` starts as `Infinity`. -/
def ltInfQ (x : ℚ) : Option ℚ → Bool
  | none => true
  | some b => decide (x < b)

/-- Machine nodes of the k-means pipeline, with injected embedding. -/
def optNodes (B : Buildings) (targets : List Target) (pos : String → ℚ × ℚ) :
    List MachineNode :=
  (calculateRequirements B targets).nodes.map (toMachineNode pos)

/-- Flow links of the optimizer pipelines, in id form. -/
def optLinks (B : Buildings) (targets : List Target) : List MachineLink :=
  (calculateRequirements B targets).links.map
    (fun l => (⟨l.source, l.target, l.value⟩ : MachineLink))

/-- The partitionable item set: the nodes surviving the
`category !== 'sink'` filter. -/
def optItems (B : Buildings) (targets : List Target) (pos : String → ℚ × ℚ) :
    List MachineNode :=
  (optNodes B targets pos).filter (fun n => n.category != "sink")

/-- First-appearance-order grouping of the assigned nodes by cluster
id (the `clusters` map of the result). -/
def pushCluster : List (ℤ × List MachineNode) → ℤ → MachineNode →
    List (ℤ × List MachineNode)
  | [], c, n => [(c, [n])]
  | (c', ns) :: rest, c, n =>
    if c' = c then (c', ns ++ [n]) :: rest else (c', ns) :: pushCluster rest c n

/-- Group nodes by their assigned cluster id, skipping unassigned
nodes, exactly as the result-construction loops do. -/
def buildClusters (nodes : List MachineNode) : List (ℤ × List MachineNode) :=
  nodes.foldl
    (fun acc n =>
      match n.clusterId with
      | some c => pushCluster acc c n
      | none => acc) []

/-- The final-statistics pass of `optimizeLayout`: a `new Map` from the
node list (last entry wins on a duplicate id) queried per link, with
undefined cluster ids skipped. -/
def clusterOfLast (nodes : List MachineNode) (id : String) : Option ℤ :=
  match lookupLast (nodes.map (fun n => (n.id, n.clusterId))) id with
  | some c => c
  | none => none

/-- Recomputed total cross-cluster flow of `optimizeLayout` (lines
165-179 of `optimizer.ts`). -/
def statsFlow (nodes : List MachineNode) (links : List MachineLink) : ℚ :=
  links.foldl
    (fun acc l =>
      match clusterOfLast nodes l.source, clusterOfLast nodes l.target with
      | some sc, some tc => if sc ≠ tc then acc + l.value else acc
      | _, _ => acc) 0

/-- The multi-restart loop: keep the lowest-scoring assignment across
all attempts, starting from an empty map and an infinite best score. -/
def kmeansBest (items : List MachineNode) (links : List MachineLink)
    (splitC : List (String × String)) (k : ℕ) (attempts : ℕ)
    (shuffle : ℕ → List MachineNode → List MachineNode) :
    List (String × ℤ) × Option ℚ :=
  (List.range attempts).foldl
    (fun (acc : List (String × ℤ) × Option ℚ) pass =>
      let pr := kmeansPass items links splitC k (shuffle pass items)
      if ltInfQ pr.2 acc.2 then (pr.1, some pr.2) else acc)
    ([], none)

/-- The embedded `optimizeLayout`: resolve the flow graph, attach
injected coordinates, run the multi-restart k-means over the shuffles,
apply the best assignment (default cluster 0 for ids the best map
misses) and package the result with a freshly recomputed statistic.
The `constraints` argument only shapes the injected embedding (it adds
synthetic springs to the physics simulation) and so does not appear in
the clustering itself. -/
def optimizeLayout (B : Buildings) (targets : List Target) (numClusters : ℕ)
    (splitC : List (String × String)) (constraints : List (String × String)) (attempts : ℕ)
    (pos : String → ℚ × ℚ) (shuffle : ℕ → List MachineNode → List MachineNode) :
    OptimizerResult :=
  let nodes0 := optNodes B targets pos
  let links := optLinks B targets
  let items := optItems B targets pos
  let nodes1 :=
    if 0 < items.length then
      let best := kmeansBest items links splitC (min numClusters items.length) attempts shuffle
      nodes0.map (fun n => { n with clusterId := some ((mapGet best.1 n.id).getD 0) })
    else nodes0
  { nodes := nodes1
    links := links
    clusters := buildClusters nodes1
    stats := { totalCrossFlow := statsFlow nodes1 links } }

/-! ### Evolutionary partitioning (`geneticOptimizer.ts`) -/

/-- The fitness weight tuple (`GAParams.weights`). -/
structure GAWeights where
  constraints : ℚ
  split : ℚ
  balance : ℚ
  transport : ℚ
deriving DecidableEq, Repr

/-- The evolutionary search parameters (`GAParams`). -/
structure GAParams where
  populationSize : ℕ
  generations : ℕ
  mutationRate : ℚ
  numClusters : ℕ
  weights : GAWeights
  constraints : List (String × String)
  splitConstraints : List (String × String)
  minClusterSize : ℕ
  maxClusterSize : ℕ
deriving DecidableEq, Repr

/-- The random draws one `evolve` consumes, indexed by child position
and slot: four tournament picks per parent, one crossover coin per
gene, and one mutation coin plus one replacement draw per gene. -/
structure EvOracle where
  tournA : ℕ → ℕ → ℚ
  tournB : ℕ → ℕ → ℚ
  crossPick : ℕ → ℕ → ℚ
  mutCoin : ℕ → ℕ → ℚ
  mutPick : ℕ → ℕ → ℚ

/-- The `Math.random` contract: every draw lies in `[0, 1)`. -/
def UnitRange (f : ℕ → ℕ → ℚ) : Prop := ∀ i j, 0 ≤ f i j ∧ f i j < 1

/-- Validity of a whole oracle under the `Math.random` contract. -/
def EvOracle.Valid (o : EvOracle) : Prop :=
  UnitRange o.tournA ∧ UnitRange o.tournB ∧ UnitRange o.crossPick
    ∧ UnitRange o.mutCoin ∧ UnitRange o.mutPick

/-- `Math.floor(r * n)`: the uniform index / cluster draw. -/
def randPick (r : ℚ) (n : ℕ) : ℤ := Int.floor (r * n)

/-- The `new Map(nodes.map((n, i) => [n.id, i]))` content, with running
indices. -/
def idxMapAux : List MachineNode → ℕ → List (String × ℕ)
  | [], _ => []
  | n :: ns, i => (n.id, i) :: idxMapAux ns (i + 1)

/-- Node-id to index map used by the fitness function and the final
statistics (last entry wins on duplicates, as for `new Map`). -/
def nodeIndexMap (nodes : List MachineNode) : List (String × ℕ) :=
  idxMapAux nodes 0

/-- The guarded write `clusterCounts[c]++`; a gene outside `[0, k)`
leaves the counts unchanged (JavaScript would corrupt the array there,
but reachable genes are always in range). -/
def bumpCount : List ℕ → ℤ → List ℕ
  | [], _ => []
  | c0 :: rest, i => if i = 0 then (c0 + 1) :: rest else c0 :: bumpCount rest (i - 1)

/-- Cluster occupancy of an individual (`clusterCounts`). -/
def clusterCounts (k : ℕ) (ind : List ℤ) : List ℕ :=
  ind.foldl (fun counts c => bumpCount counts c) (List.replicate k 0)

/-- The four-term fitness of `GeneticOptimizer.calculateFitness`
(lower is better): weighted cross-cluster transport, co-location and
split-constraint penalties, size-balance penalties for occupied
clusters, and a fixed 500 penalty per empty cluster. -/
def calculateFitness (nodes : List MachineNode) (links : List MachineLink) (p : GAParams)
    (ind : List ℤ) : ℚ :=
  let s1 := links.foldl
    (fun acc l =>
      match lookupLast (nodeIndexMap nodes) l.source,
          lookupLast (nodeIndexMap nodes) l.target with
      | some si, some ti =>
        if ind[si]? ≠ ind[ti]? then acc + l.value * p.weights.transport else acc
      | _, _ => acc) 0
  let s2 := p.constraints.foldl
    (fun acc ab =>
      match (nodes.findIdx? (fun n => n.name == ab.1)),
          (nodes.findIdx? (fun n => n.name == ab.2)) with
      | some iA, some iB =>
        if ind[iA]? ≠ ind[iB]? then acc + p.weights.constraints else acc
      | _, _ => acc) s1
  let s3 := p.splitConstraints.foldl
    (fun acc ab =>
      match (nodes.findIdx? (fun n => n.name == ab.1)),
          (nodes.findIdx? (fun n => n.name == ab.2)) with
      | some iA, some iB =>
        if ind[iA]? = ind[iB]? then acc + p.weights.split else acc
      | _, _ => acc) s2
  let counts := clusterCounts p.numClusters ind
  let s4 := counts.foldl
    (fun acc c =>
      if 0 < c then
        acc + (if c < p.minClusterSize
                then ((p.minClusterSize : ℚ) - (c : ℚ)) * p.weights.balance else 0)
          + (if p.maxClusterSize < c
                then ((c : ℚ) - (p.maxClusterSize : ℚ)) * p.weights.balance else 0)
      else acc) s3
  s4 + ((counts.filter (fun c => c == 0)).length : ℚ) * 500

/-- Random initial population: one uniformly drawn cluster id per node
per individual (`GeneticOptimizer.initialize`). -/
def gaInitPop (nodes : List MachineNode) (p : GAParams) (r : ℕ → ℕ → ℚ) :
    List (List ℤ) :=
  (List.range p.populationSize).map
    (fun i => (List.range nodes.length).map (fun j => randPick (r i j) p.numClusters))

/-- The fitness-sorted population (`sortedPop`), ascending. -/
def gaSorted (nodes : List MachineNode) (links : List MachineLink) (p : GAParams)
    (pop : List (List ℤ)) : List (List ℤ × ℚ) :=
  (pop.map (fun ind => (ind, calculateFitness nodes links p ind))).mergeSort
    (fun a b => decide (a.2 ≤ b.2))

/-- `Math.max(2, Math.floor(populationSize * 0.1))`, with the decimal
literal read exactly as 1/10. -/
def eliteCountOf (p : GAParams) : ℕ :=
  max 2 (Int.floor ((p.populationSize : ℚ) * (1 / 10))).toNat

/-- One indexed pick of `tournamentSelect`; the fallback for an
out-of-range index is unreachable under the `Math.random` contract on a
non-empty population (JavaScript would crash there). -/
def tpick (sorted : List (List ℤ × ℚ)) (r : ℚ) : List ℤ × ℚ :=
  match sorted[(randPick r sorted.length).toNat]? with
  | some x => x
  | none => ([], 0)

/-- Tournament selection: four uniform picks with replacement, keeping
the lowest fitness. -/
def tournamentSelect (sorted : List (List ℤ × ℚ)) (r : ℕ → ℚ) : List ℤ :=
  ([1, 2, 3].foldl
    (fun best i =>
      let cand := tpick sorted (r i)
      if cand.2 < best.2 then cand else best)
    (tpick sorted (r 0))).1

/-- Index-aware map used for the per-gene loops. -/
def listMapIdx {α β : Type} (f : ℕ → α → β) : ℕ → List α → List β
  | _, [] => []
  | i, a :: rest => f i a :: listMapIdx f (i + 1) rest

/-- Uniform crossover: each gene from parent A or parent B with a fair
coin (`parentB[i]` is always in range because individuals share one
length). -/
def gaCrossover (pA pB : List ℤ) (r : ℕ → ℚ) : List ℤ :=
  listMapIdx (fun i g => if r i < 1 / 2 then g else pB.getD i 0) 0 pA

/-- Per-gene mutation: with probability `mutationRate` replace the gene
by a fresh uniform cluster id. -/
def gaMutate (p : GAParams) (coin pick : ℕ → ℚ) (ind : List ℤ) : List ℤ :=
  listMapIdx
    (fun i g => if coin i < p.mutationRate then randPick (pick i) p.numClusters else g)
    0 ind

/-- The breeding loop filling the population back up to
`populationSize`, one child per iteration. -/
def gaBreed (sorted : List (List ℤ × ℚ)) (p : GAParams) (o : EvOracle) :
    ℕ → ℕ → List (List ℤ)
  | 0, _ => []
  | n + 1, idx =>
    let pA := tournamentSelect sorted (o.tournA idx)
    let pB := tournamentSelect sorted (o.tournB idx)
    gaMutate p (o.mutCoin idx) (o.mutPick idx) (gaCrossover pA pB (o.crossPick idx))
      :: gaBreed sorted p o n (idx + 1)

/-- One generation of `GeneticOptimizer.evolve`: elitism (top
`max(2, ⌊populationSize/10⌋)` of the ascending sort carried unchanged)
followed by tournament selection, crossover and mutation. -/
def gaEvolve (nodes : List MachineNode) (links : List MachineLink) (p : GAParams)
    (o : EvOracle) (pop : List (List ℤ)) : List (List ℤ) :=
  let sorted := gaSorted nodes links p pop
  let elites := (sorted.take (eliteCountOf p)).map Prod.fst
  elites ++ gaBreed sorted p o (p.populationSize - elites.length) 0

/-- The value of `GeneticOptimizer.getBestResult`: `individual` is
`undefined` (here `none`) only for an empty population, and `none` as
`fitness` models the initial `Infinity`. -/
structure GABest where
  individual : Option (List ℤ)
  fitness : Option ℚ
deriving Repr

/-- `getBestResult`: scan the population for the lowest fitness,
starting from `population[0]` and `Infinity`. -/
def gaBest (nodes : List MachineNode) (links : List MachineLink) (p : GAParams)
    (pop : List (List ℤ)) : GABest :=
  pop.foldl
    (fun acc ind =>
      let fit := calculateFitness nodes links p ind
      if ltInfQ fit acc.fitness then { individual := some ind, fitness := some fit } else acc)
    { individual := pop.head?, fitness := none }

/-- JavaScript `x < y` on fitness values where either may be
`Infinity` (`none`). -/
def ltInfOpt : Option ℚ → Option ℚ → Bool
  | some a, some b => decide (a < b)
  | some _, none => true
  | none, _ => false

/-- Machine nodes of the genetic pipeline. -/
def gaNodes (B : Buildings) (targets : List Target) : List MachineNode :=
  (calculateRequirements B targets).nodes.map toMachineNodeG

/-- Assign the best individual's genes as cluster ids, by node index
(`nodes.forEach((n, i) => n.clusterId = individual[i])`; an index past
the individual's length leaves the id undefined, as in the source). -/
def assignClusters (ind : List ℤ) : ℕ → List MachineNode → List MachineNode
  | _, [] => []
  | i, n :: ns => { n with clusterId := ind[i]? } :: assignClusters ind (i + 1) ns

/-- The final-statistics pass of `runGeneticOptimization` (lines
245-256 of `geneticOptimizer.ts`): per link, compare the best
individual's genes at the two endpoint indices. -/
def statsFlowGA (nodes : List MachineNode) (links : List MachineLink) (ind : List ℤ) : ℚ :=
  links.foldl
    (fun acc l =>
      match lookupLast (nodeIndexMap nodes) l.source,
          lookupLast (nodeIndexMap nodes) l.target with
      | some si, some ti => if ind[si]? ≠ ind[ti]? then acc + l.value else acc
      | _, _ => acc) 0

/-- Result construction from the best individual. -/
def finishGA (nodes : List MachineNode) (links : List MachineLink) (ind : List ℤ) :
    OptimizerResult :=
  let nodes1 := assignClusters ind 0 nodes
  { nodes := nodes1
    links := links
    clusters := buildClusters nodes1
    stats := { totalCrossFlow := statsFlowGA nodes links ind } }

/-- One attempt of the genetic search: a fresh random population,
`generations` evolution steps, then `getBestResult`. -/
def gaAttempt (nodes : List MachineNode) (links : List MachineLink) (p : GAParams)
    (rinitA : ℕ → ℕ → ℚ) (orcA : ℕ → EvOracle) : GABest :=
  gaBest nodes links p
    ((List.range p.generations).foldl
      (fun pop g => gaEvolve nodes links p (orcA g) pop)
      (gaInitPop nodes p rinitA))

/-- The attempt loop of `runGeneticOptimization`: keep the best result
across all attempts (`!bestResult || res.fitness < bestResult.fitness`). -/
def gaSearch (nodes : List MachineNode) (links : List MachineLink) (p : GAParams)
    (attempts : ℕ) (rinit : ℕ → ℕ → ℕ → ℚ) (orc : ℕ → ℕ → EvOracle) : Option GABest :=
  (List.range attempts).foldl
    (fun (acc : Option GABest) a =>
      let res := gaAttempt nodes links p (rinit a) (orc a)
      match acc with
      | none => some res
      | some b => if ltInfOpt res.fitness b.fitness then some res else some b)
    none

/-- The embedded `runGeneticOptimization`.  A synchronous throw inside
the promise executor rejects the promise, so both the explicit
`throw new Error("Optimization failed")` and the `TypeError` JavaScript
would raise when dereferencing an `undefined` individual (possible only
for an empty population) surface as `Except.error`. -/
def runGeneticOptimization (B : Buildings) (targets : List Target) (p : GAParams)
    (attempts : ℕ) (rinit : ℕ → ℕ → ℕ → ℚ) (orc : ℕ → ℕ → EvOracle) :
    Except String OptimizerResult :=
  match gaSearch (gaNodes B targets) (optLinks B targets) p attempts rinit orc with
  | none => Except.error "Optimization failed"
  | some best =>
    match best.individual with
    | none => Except.error "TypeError: undefined individual"
    | some individual => Except.ok (finishGA (gaNodes B targets) (optLinks B targets) individual)

/-! ### Elitism makes the best fitness non-increasing (claim C5) -/

lemma gaSorted_perm (nodes : List MachineNode) (links : List MachineLink) (p : GAParams)
    (pop : List (List ℤ)) :
    (gaSorted nodes links p pop).Perm
      (pop.map (fun ind => (ind, calculateFitness nodes links p ind))) :=
  List.mergeSort_perm _ _

lemma gaSorted_snd (nodes : List MachineNode) (links : List MachineLink) (p : GAParams)
    (pop : List (List ℤ)) (pr : List ℤ × ℚ) (h : pr ∈ gaSorted nodes links p pop) :
    pr.2 = calculateFitness nodes links p pr.1 ∧ pr.1 ∈ pop := by
  have hm := (gaSorted_perm nodes links p pop).mem_iff.1 h
  obtain ⟨ind, hind, heq⟩ := List.mem_map.1 hm
  constructor
  · rw [← heq]
  · rw [← heq]; exact hind

lemma gaSorted_pairwise (nodes : List MachineNode) (links : List MachineLink) (p : GAParams)
    (pop : List (List ℤ)) :
    (gaSorted nodes links p pop).Pairwise (fun a b => a.2 ≤ b.2) := by
  have h := @List.sorted_mergeSort (List ℤ × ℚ)
    (fun a b => decide (a.2 ≤ b.2))
    (fun a b c hab hbc => by
      simp only [decide_eq_true_eq] at *
      exact le_trans hab hbc)
    (fun a b => by
      simp only [Bool.or_eq_true, decide_eq_true_eq]
      exact le_total a.2 b.2)
    (pop.map (fun ind => (ind, calculateFitness nodes links p ind)))
  exact h.imp (fun hab => by simpa using hab)

/-- C5: one `evolve` step never increases the best (lowest) fitness of
the population, for every outcome of the random draws: the lowest few
individuals of the ascending sort are copied unchanged by elitism and
fitness is a deterministic function of an individual. -/
theorem C5_evolve_best_nonincreasing (nodes : List MachineNode) (links : List MachineLink)
    (p : GAParams) (o : EvOracle) (pop : List (List ℤ)) :
    ((gaEvolve nodes links p o pop).map (calculateFitness nodes links p)).minimum
      ≤ (pop.map (calculateFitness nodes links p)).minimum := by
  cases hmin : (pop.map (calculateFitness nodes links p)).minimum with
  | top => exact le_top
  | coe m =>
    have hmem : m ∈ pop.map (calculateFitness nodes links p) := List.minimum_mem hmin
    obtain ⟨ind0, hind0, hfit0⟩ := List.mem_map.1 hmem
    cases hs : gaSorted nodes links p pop with
    | nil =>
      exfalso
      have hp := (gaSorted_perm nodes links p pop)
      rw [hs] at hp
      have : (ind0, calculateFitness nodes links p ind0)
          ∈ pop.map (fun ind => (ind, calculateFitness nodes links p ind)) :=
        List.mem_map.2 ⟨ind0, hind0, rfl⟩
      rw [← hp.mem_iff] at this
      simp at this
    | cons h0 rest =>
      have helite : h0.1 ∈ gaEvolve nodes links p o pop := by
        unfold gaEvolve
        rw [hs]
        apply List.mem_append_left
        apply List.mem_map.2
        refine ⟨h0, ?_, rfl⟩
        have h2 : 1 ≤ eliteCountOf p := le_trans (by norm_num) (Nat.le_max_left 2 _)
        cases he : eliteCountOf p with
        | zero => omega
        | succ n => simp [List.take]
      have h1 : ((gaEvolve nodes links p o pop).map (calculateFitness nodes links p)).minimum
          ≤ (calculateFitness nodes links p h0.1 : WithTop ℚ) :=
        List.minimum_le_of_mem' (List.mem_map.2 ⟨h0.1, helite, rfl⟩)
      have hh0 := gaSorted_snd nodes links p pop h0 (by rw [hs]; exact List.mem_cons_self _ _)
      have hpair : (ind0, calculateFitness nodes links p ind0) ∈ gaSorted nodes links p pop :=
        (gaSorted_perm nodes links p pop).mem_iff.2 (List.mem_map.2 ⟨ind0, hind0, rfl⟩)
      have hle : h0.2 ≤ calculateFitness nodes links p ind0 := by
        rw [hs] at hpair
        rcases List.mem_cons.1 hpair with heq | hmem2
        · rw [← heq]
        · have hpw := gaSorted_pairwise nodes links p pop
          rw [hs] at hpw
          exact (List.pairwise_cons.1 hpw).1 _ hmem2
      calc ((gaEvolve nodes links p o pop).map (calculateFitness nodes links p)).minimum
          ≤ (calculateFitness nodes links p h0.1 : WithTop ℚ) := h1
        _ = (h0.2 : WithTop ℚ) := by rw [hh0.1]
        _ ≤ (m : WithTop ℚ) := by
            rw [← hfit0]
            exact_mod_cast hle

/-! ### The reported statistic is recomputed from the final assignment (claim C2) -/

/-- Specification-side reading of a node's final cluster id: the first
node with the id in the returned list, then its `clusterId`. -/
def clusterOf (nodes : List MachineNode) (id : String) : Option ℤ :=
  (nodes.find? (fun n => n.id == id)).bind (fun n => n.clusterId)

/-- Specification-side cross-cluster transport: the sum of link values
whose two endpoints carry different defined cluster ids in the node
list (the `PartitionScorer` contract of the specification). -/
def crossFlowOf (nodes : List MachineNode) (links : List MachineLink) : ℚ :=
  (links.map (fun l =>
    match clusterOf nodes l.source, clusterOf nodes l.target with
    | some sc, some tc => if sc ≠ tc then l.value else 0
    | _, _ => 0)).sum

lemma calc_nodeNames_nodup (B : Buildings) (targets : List Target) :
    (nodeNames (calculateRequirements B targets).nodes).Nodup := by
  have main : ∀ (ts : List Target) (s : CalcState), (nodeNames s.nodes).Nodup →
      (nodeNames
        (ts.foldl (fun s t => traverse B (sufficientFuel B) t.id t.amount s) s).nodes).Nodup := by
    intro ts
    induction ts with
    | nil => intro s h; exact h
    | cons t rest ih =>
      intro s h
      simp only [List.foldl_cons]
      exact ih _ (nodup_nodeNames_traverse B _ _ _ _ h)
  exact main targets ⟨[], []⟩ (by simp [nodeNames])

lemma lookupLast_none_of_not_mem {α : Type} (L : List (String × α)) (k : String)
    (h : k ∉ L.map Prod.fst) : lookupLast L k = none := by
  induction L with
  | nil => rfl
  | cons kv rest ih =>
    obtain ⟨k', v⟩ := kv
    simp only [List.map_cons, List.mem_cons, not_or] at h
    simp only [lookupLast, ih h.2]
    rw [if_neg (fun hc => h.1 hc.symm)]

lemma clusterOfLast_eq_clusterOf (nodes : List MachineNode) (id : String)
    (h : (nodes.map (fun n => n.id)).Nodup) : clusterOfLast nodes id = clusterOf nodes id := by
  induction nodes with
  | nil => rfl
  | cons n rest ih =>
    simp only [List.map_cons, List.nodup_cons] at h
    by_cases hid : n.id = id
    · have hnone : lookupLast (rest.map (fun n => (n.id, n.clusterId))) id = none := by
        exact lookupLast_none_of_not_mem _ _ (by
          rw [List.map_map]
          intro hc
          obtain ⟨m, hm, hmid⟩ := List.mem_map.1 hc
          exact h.1 (hid ▸ (List.mem_map.2 ⟨m, hm, hmid⟩)))
      simp only [clusterOfLast, lookupLast, List.map_cons, hnone, if_pos hid, clusterOf,
        List.find?]
      rw [show (n.id == id) = true by simpa using hid]
      rfl
    · have hc1 : clusterOfLast (n :: rest) id = clusterOfLast rest id := by
        simp only [clusterOfLast, lookupLast, List.map_cons]
        cases hinner : lookupLast (rest.map (fun n => (n.id, n.clusterId))) id with
        | none => rw [if_neg hid]
        | some w => rfl
      have hc2 : clusterOf (n :: rest) id = clusterOf rest id := by
        simp only [clusterOf, List.find?]
        rw [show (n.id == id) = false by simpa using hid]
      rw [hc1, hc2]
      exact ih h.2

lemma statsFlow_eq_sum (nodes : List MachineNode) (links : List MachineLink) :
    statsFlow nodes links
      = (links.map (fun l =>
          match clusterOfLast nodes l.source, clusterOfLast nodes l.target with
          | some sc, some tc => if sc ≠ tc then l.value else 0
          | _, _ => 0)).sum := by
  have main : ∀ (L : List MachineLink) (a : ℚ),
      L.foldl (fun acc l =>
        match clusterOfLast nodes l.source, clusterOfLast nodes l.target with
        | some sc, some tc => if sc ≠ tc then acc + l.value else acc
        | _, _ => acc) a
        = a + (L.map (fun l =>
            match clusterOfLast nodes l.source, clusterOfLast nodes l.target with
            | some sc, some tc => if sc ≠ tc then l.value else 0
            | _, _ => 0)).sum := by
    intro L
    induction L with
    | nil => intro a; simp
    | cons l rest ih =>
      intro a
      simp only [List.foldl_cons, List.map_cons, List.sum_cons]
      cases hc1 : clusterOfLast nodes l.source with
      | none => dsimp only; rw [ih]; ring
      | some sc =>
        cases hc2 : clusterOfLast nodes l.target with
        | none => dsimp only; rw [ih]; ring
        | some tc =>
          dsimp only
          by_cases hne : sc ≠ tc
          · rw [if_pos hne, if_pos hne, ih]; ring
          · rw [if_neg hne, if_neg hne, ih]; ring
  simpa [statsFlow] using main links 0

lemma statsFlow_eq_crossFlowOf (nodes : List MachineNode) (links : List MachineLink)
    (h : (nodes.map (fun n => n.id)).Nodup) : statsFlow nodes links = crossFlowOf nodes links := by
  rw [statsFlow_eq_sum]
  unfold crossFlowOf
  congr 1
  apply List.map_congr_left
  intro l _
  rw [clusterOfLast_eq_clusterOf nodes l.source h, clusterOfLast_eq_clusterOf nodes l.target h]

lemma idxMapAux_none_of_not_mem (ns : List MachineNode) (id : String) :
    ∀ j, id ∉ ns.map (fun n => n.id) → lookupLast (idxMapAux ns j) id = none := by
  induction ns with
  | nil => intro j _; rfl
  | cons n rest ih =>
    intro j h
    simp only [List.map_cons, List.mem_cons, not_or] at h
    simp only [idxMapAux, lookupLast, ih (j + 1) h.2]
    rw [if_neg (fun hc => h.1 hc.symm)]

lemma idxMapAux_some_bounds (ns : List MachineNode) (id : String) :
    ∀ j i, lookupLast (idxMapAux ns j) id = some i → j ≤ i ∧ i < j + ns.length := by
  induction ns with
  | nil => intro j i h; simp [idxMapAux, lookupLast] at h
  | cons n rest ih =>
    intro j i h
    simp only [idxMapAux, lookupLast] at h
    cases htail : lookupLast (idxMapAux rest (j + 1)) id with
    | some w =>
      rw [htail] at h
      have h2 := ih (j + 1) w htail
      obtain rfl := Option.some.inj h
      simp only [List.length_cons]
      omega
    | none =>
      rw [htail] at h
      by_cases hid : n.id = id
      · rw [if_pos hid] at h
        obtain rfl := Option.some.inj h
        simp only [List.length_cons]
        omega
      · rw [if_neg hid] at h
        cases h

lemma clusterOf_assign (ind : List ℤ) (nodes : List MachineNode) (id : String) :
    ∀ j, (nodes.map (fun n => n.id)).Nodup →
      clusterOf (assignClusters ind j nodes) id
        = match lookupLast (idxMapAux nodes j) id with
          | some i => ind[i]?
          | none => none := by
  induction nodes with
  | nil => intro j _; rfl
  | cons n rest ih =>
    intro j hnd
    simp only [List.map_cons, List.nodup_cons] at hnd
    by_cases hid : n.id = id
    · have hnone : lookupLast (idxMapAux rest (j + 1)) id = none :=
        idxMapAux_none_of_not_mem rest id (j + 1) (hid ▸ hnd.1)
      simp only [assignClusters, clusterOf, List.find?, idxMapAux, lookupLast, hnone]
      rw [show (n.id == id) = true by simpa using hid, if_pos hid]
      rfl
    · have h1 : clusterOf (assignClusters ind j (n :: rest)) id
          = clusterOf (assignClusters ind (j + 1) rest) id := by
        simp only [assignClusters, clusterOf, List.find?]
        rw [show (n.id == id) = false by simpa using hid]
      rw [h1, ih (j + 1) hnd.2]
      simp only [idxMapAux, lookupLast]
      cases htail : lookupLast (idxMapAux rest (j + 1)) id with
      | some w => rfl
      | none => rw [if_neg hid]

lemma statsFlowGA_eq_sum (nodes : List MachineNode) (links : List MachineLink) (ind : List ℤ) :
    statsFlowGA nodes links ind
      = (links.map (fun l =>
          match lookupLast (nodeIndexMap nodes) l.source,
              lookupLast (nodeIndexMap nodes) l.target with
          | some si, some ti => if ind[si]? ≠ ind[ti]? then l.value else 0
          | _, _ => 0)).sum := by
  have main : ∀ (L : List MachineLink) (a : ℚ),
      L.foldl (fun acc l =>
        match lookupLast (nodeIndexMap nodes) l.source,
            lookupLast (nodeIndexMap nodes) l.target with
        | some si, some ti => if ind[si]? ≠ ind[ti]? then acc + l.value else acc
        | _, _ => acc) a
        = a + (L.map (fun l =>
            match lookupLast (nodeIndexMap nodes) l.source,
                lookupLast (nodeIndexMap nodes) l.target with
            | some si, some ti => if ind[si]? ≠ ind[ti]? then l.value else 0
            | _, _ => 0)).sum := by
    intro L
    induction L with
    | nil => intro a; simp
    | cons l rest ih =>
      intro a
      simp only [List.foldl_cons, List.map_cons, List.sum_cons]
      cases hc1 : lookupLast (nodeIndexMap nodes) l.source with
      | none => dsimp only; rw [ih]; ring
      | some si =>
        cases hc2 : lookupLast (nodeIndexMap nodes) l.target with
        | none => dsimp only; rw [ih]; ring
        | some ti =>
          dsimp only
          by_cases hne : ind[si]? ≠ ind[ti]?
          · rw [if_pos hne, if_pos hne, ih]; ring
          · rw [if_neg hne, if_neg hne, ih]; ring
  simpa [statsFlowGA] using main links 0

lemma statsFlowGA_eq_crossFlow (nodes : List MachineNode) (links : List MachineLink)
    (ind : List ℤ) (hnd : (nodes.map (fun n => n.id)).Nodup)
    (hlen : ind.length = nodes.length ∨ ind.length = 0) :
    statsFlowGA nodes links ind = crossFlowOf (assignClusters ind 0 nodes) links := by
  rw [statsFlowGA_eq_sum]
  unfold crossFlowOf
  congr 1
  apply List.map_congr_left
  intro l _
  rw [clusterOf_assign ind nodes l.source 0 hnd, clusterOf_assign ind nodes l.target 0 hnd]
  simp only [nodeIndexMap]
  cases hc1 : lookupLast (idxMapAux nodes 0) l.source with
  | none => cases hc2 : lookupLast (idxMapAux nodes 0) l.target <;> rfl
  | some si =>
    cases hc2 : lookupLast (idxMapAux nodes 0) l.target with
    | none =>
      dsimp only
      cases ind[si]? <;> rfl
    | some ti =>
      dsimp only
      have hsi := idxMapAux_some_bounds nodes l.source 0 si hc1
      have hti := idxMapAux_some_bounds nodes l.target 0 ti hc2
      cases hlen with
      | inl hn =>
        have hsi' : si < ind.length := by omega
        have hti' : ti < ind.length := by omega
        rw [List.getElem?_eq_getElem hsi', List.getElem?_eq_getElem hti']
        by_cases hne : ind[si] = ind[ti]
        · simp [hne]
        · simp [hne]
      | inr h0 =>
        have hnil : ind = [] := List.eq_nil_of_length_eq_zero h0
        subst hnil
        simp

lemma listMapIdx_length {α β : Type} (f : ℕ → α → β) :
    ∀ i L, (listMapIdx f i L).length = L.length := by
  intro i L
  induction L generalizing i with
  | nil => rfl
  | cons a rest ih => simp [listMapIdx, ih]

lemma gaCrossover_length (pA pB : List ℤ) (r : ℕ → ℚ) :
    (gaCrossover pA pB r).length = pA.length := listMapIdx_length _ _ _

lemma gaMutate_length (p : GAParams) (coin pick : ℕ → ℚ) (ind : List ℤ) :
    (gaMutate p coin pick ind).length = ind.length := listMapIdx_length _ _ _

lemma tpick_cases (sorted : List (List ℤ × ℚ)) (r : ℚ) :
    tpick sorted r ∈ sorted ∨ tpick sorted r = ([], 0) := by
  unfold tpick
  cases hg : sorted[(randPick r sorted.length).toNat]? with
  | none => exact Or.inr rfl
  | some x =>
    have hx : sorted.get? (randPick r sorted.length).toNat = some x := by
      rw [List.get?_eq_getElem?]
      exact hg
    exact Or.inl (List.get?_mem hx)

lemma tournamentSelect_cases (sorted : List (List ℤ × ℚ)) (r : ℕ → ℚ) :
    tournamentSelect sorted r ∈ sorted.map Prod.fst ∨ tournamentSelect sorted r = [] := by
  unfold tournamentSelect
  have hfold : ∀ (L : List ℕ) (b : List ℤ × ℚ), (b ∈ sorted ∨ b = ([], 0)) →
      (L.foldl (fun best i =>
        let cand := tpick sorted (r i)
        if cand.2 < best.2 then cand else best) b ∈ sorted
        ∨ L.foldl (fun best i =>
            let cand := tpick sorted (r i)
            if cand.2 < best.2 then cand else best) b = ([], 0)) := by
    intro L
    induction L with
    | nil => intro b hb; exact hb
    | cons i rest ih =>
      intro b hb
      simp only [List.foldl_cons]
      apply ih
      dsimp only
      split
      · exact tpick_cases sorted (r i)
      · exact hb
  rcases hfold [1, 2, 3] (tpick sorted (r 0)) (tpick_cases sorted (r 0)) with h | h
  · exact Or.inl (List.mem_map.2 ⟨_, h, rfl⟩)
  · rw [h]
    exact Or.inr rfl

lemma gaBreed_len (sorted : List (List ℤ × ℚ)) (p : GAParams) (o : EvOracle) (n0 : ℕ)
    (hs : ∀ pr ∈ sorted, pr.1.length = n0 ∨ pr.1.length = 0) :
    ∀ cnt idx ind, ind ∈ gaBreed sorted p o cnt idx →
      ind.length = n0 ∨ ind.length = 0 := by
  intro cnt
  induction cnt with
  | zero => intro idx ind h; simp [gaBreed] at h
  | succ n ih =>
    intro idx ind h
    simp only [gaBreed] at h
    rcases List.mem_cons.1 h with heq | hmem
    · subst heq
      rw [gaMutate_length, gaCrossover_length]
      rcases tournamentSelect_cases sorted (o.tournA idx) with hA | hA
      · obtain ⟨pr, hpr, hfst⟩ := List.mem_map.1 hA
        rw [← hfst]
        exact hs pr hpr
      · rw [hA]
        exact Or.inr rfl
    · exact ih _ _ hmem

lemma gaEvolve_len (nodes : List MachineNode) (links : List MachineLink) (p : GAParams)
    (o : EvOracle) (pop : List (List ℤ)) (n0 : ℕ)
    (h : ∀ ind ∈ pop, ind.length = n0 ∨ ind.length = 0) :
    ∀ ind ∈ gaEvolve nodes links p o pop, ind.length = n0 ∨ ind.length = 0 := by
  intro ind hmem
  unfold gaEvolve at hmem
  rcases List.mem_append.1 hmem with helite | hbreed
  · obtain ⟨pr, hpr, hfst⟩ := List.mem_map.1 helite
    have hpr2 : pr ∈ gaSorted nodes links p pop := List.take_subset _ _ hpr
    rw [← hfst]
    exact h pr.1 (gaSorted_snd nodes links p pop pr hpr2).2
  · exact gaBreed_len _ p o n0
      (fun pr hpr => h pr.1 (gaSorted_snd nodes links p pop pr hpr).2) _ _ ind hbreed

lemma gaInitPop_len (nodes : List MachineNode) (p : GAParams) (r : ℕ → ℕ → ℚ) :
    ∀ ind ∈ gaInitPop nodes p r, ind.length = nodes.length := by
  intro ind h
  obtain ⟨i, _, heq⟩ := List.mem_map.1 h
  rw [← heq]
  simp

lemma gaBest_mem (nodes : List MachineNode) (links : List MachineLink) (p : GAParams)
    (pop : List (List ℤ)) (ind : List ℤ)
    (h : (gaBest nodes links p pop).individual = some ind) : ind ∈ pop := by
  unfold gaBest at h
  have hfold : ∀ (L : List (List ℤ)), L ⊆ pop → ∀ (acc : GABest),
      (acc.individual = none ∨ ∃ i ∈ pop, acc.individual = some i) →
      ((L.foldl (fun acc ind =>
          let fit := calculateFitness nodes links p ind
          if ltInfQ fit acc.fitness
            then { individual := some ind, fitness := some fit } else acc) acc).individual
        = none
        ∨ ∃ i ∈ pop, (L.foldl (fun acc ind =>
            let fit := calculateFitness nodes links p ind
            if ltInfQ fit acc.fitness
              then { individual := some ind, fitness := some fit } else acc) acc).individual
          = some i) := by
    intro L
    induction L with
    | nil => intro _ acc hacc; exact hacc
    | cons a rest ih =>
      intro hsub acc hacc
      simp only [List.foldl_cons]
      apply ih (fun x hx => hsub (List.mem_cons_of_mem _ hx))
      dsimp only
      split
      · exact Or.inr ⟨a, hsub (List.mem_cons_self _ _), rfl⟩
      · exact hacc
  have hinit : (({ individual := pop.head?, fitness := none } : GABest).individual = none
      ∨ ∃ i ∈ pop, ({ individual := pop.head?, fitness := none } : GABest).individual
          = some i) := by
    cases hp : pop with
    | nil => exact Or.inl rfl
    | cons a rest => exact Or.inr ⟨a, List.mem_cons_self _ _, by simp⟩
  rcases hfold pop (fun x hx => hx) _ hinit with h1 | h1
  · rw [h] at h1; cases h1
  · obtain ⟨i, hi, heq⟩ := h1
    rw [h] at heq
    obtain rfl := Option.some.inj heq
    exact hi

lemma gaAttempt_len (nodes : List MachineNode) (links : List MachineLink) (p : GAParams)
    (rA : ℕ → ℕ → ℚ) (oA : ℕ → EvOracle) (ind : List ℤ)
    (h : (gaAttempt nodes links p rA oA).individual = some ind) :
    ind.length = nodes.length ∨ ind.length = 0 := by
  unfold gaAttempt at h
  have hpop : ∀ i ∈ (List.range p.generations).foldl
      (fun pop g => gaEvolve nodes links p (oA g) pop) (gaInitPop nodes p rA),
      i.length = nodes.length ∨ i.length = 0 := by
    have main : ∀ (L : List ℕ) (pop : List (List ℤ)),
        (∀ i ∈ pop, i.length = nodes.length ∨ i.length = 0) →
        ∀ i ∈ L.foldl (fun pop g => gaEvolve nodes links p (oA g) pop) pop,
          i.length = nodes.length ∨ i.length = 0 := by
      intro L
      induction L with
      | nil => intro pop hp; exact hp
      | cons g rest ih =>
        intro pop hp
        simp only [List.foldl_cons]
        exact ih _ (gaEvolve_len nodes links p (oA g) pop _ hp)
    exact main _ _ (fun i hi => Or.inl (gaInitPop_len nodes p rA i hi))
  exact hpop ind (gaBest_mem nodes links p _ ind h)

lemma gaSearch_len (nodes : List MachineNode) (links : List MachineLink) (p : GAParams)
    (attempts : ℕ) (rinit : ℕ → ℕ → ℕ → ℚ) (orc : ℕ → ℕ → EvOracle) (best : GABest)
    (ind : List ℤ) (hs : gaSearch nodes links p attempts rinit orc = some best)
    (hi : best.individual = some ind) :
    ind.length = nodes.length ∨ ind.length = 0 := by
  unfold gaSearch at hs
  have hfold : ∀ (L : List ℕ) (acc : Option GABest),
      (∀ b i, acc = some b → b.individual = some i →
        i.length = nodes.length ∨ i.length = 0) →
      ∀ b i, L.foldl (fun acc a =>
          let res := gaAttempt nodes links p (rinit a) (orc a)
          match acc with
          | none => some res
          | some b => if ltInfOpt res.fitness b.fitness then some res else some b) acc
        = some b → b.individual = some i → i.length = nodes.length ∨ i.length = 0 := by
    intro L
    induction L with
    | nil => intro acc hacc; exact hacc
    | cons a rest ih =>
      intro acc hacc
      simp only [List.foldl_cons]
      apply ih
      intro b i hb hbi
      cases acc with
      | none =>
        obtain rfl := Option.some.inj hb
        exact gaAttempt_len nodes links p (rinit a) (orc a) i hbi
      | some b0 =>
        have hb2 : (if ltInfOpt (gaAttempt nodes links p (rinit a) (orc a)).fitness b0.fitness
            then some (gaAttempt nodes links p (rinit a) (orc a)) else some b0) = some b := hb
        clear hb
        by_cases hlt : ltInfOpt (gaAttempt nodes links p (rinit a) (orc a)).fitness b0.fitness
            = true
        · rw [if_pos hlt] at hb2
          obtain rfl := Option.some.inj hb2
          exact gaAttempt_len nodes links p (rinit a) (orc a) i hbi
        · rw [if_neg hlt] at hb2
          obtain rfl := Option.some.inj hb2
          exact hacc b0 i rfl hbi
  exact hfold _ none (by intro b i hb _; cases hb) best ind hs hi

/-! ### The attempt loop always produces a candidate (claim C7) -/

lemma gaSorted_ne_nil (nodes : List MachineNode) (links : List MachineLink) (p : GAParams)
    (pop : List (List ℤ)) (h : pop ≠ []) : gaSorted nodes links p pop ≠ [] := by
  intro hc
  have hp := gaSorted_perm nodes links p pop
  rw [hc] at hp
  have := (List.Perm.nil_eq hp).symm
  exact h (by
    cases hpop : pop with
    | nil => rfl
    | cons a rest =>
      rw [hpop] at this
      simp at this)

lemma gaEvolve_ne_nil (nodes : List MachineNode) (links : List MachineLink) (p : GAParams)
    (o : EvOracle) (pop : List (List ℤ)) (h : pop ≠ []) :
    gaEvolve nodes links p o pop ≠ [] := by
  unfold gaEvolve
  intro hc
  rcases List.append_eq_nil.1 hc with ⟨h1, _⟩
  have hs := gaSorted_ne_nil nodes links p pop h
  cases hsorted : gaSorted nodes links p pop with
  | nil => exact hs hsorted
  | cons a rest =>
    rw [hsorted] at h1
    have h2 : 1 ≤ eliteCountOf p := le_trans (by norm_num) (Nat.le_max_left 2 _)
    cases he : eliteCountOf p with
    | zero => omega
    | succ n =>
      rw [he] at h1
      simp [List.take] at h1

lemma gaBest_individual_some (nodes : List MachineNode) (links : List MachineLink)
    (p : GAParams) (pop : List (List ℤ)) (h : pop ≠ []) :
    ∃ ind, (gaBest nodes links p pop).individual = some ind := by
  unfold gaBest
  have hfold : ∀ (L : List (List ℤ)) (acc : GABest), (∃ i, acc.individual = some i) →
      ∃ i, (L.foldl (fun acc ind =>
        let fit := calculateFitness nodes links p ind
        if ltInfQ fit acc.fitness
          then { individual := some ind, fitness := some fit } else acc) acc).individual
        = some i := by
    intro L
    induction L with
    | nil => intro acc hacc; exact hacc
    | cons a rest ih =>
      intro acc hacc
      simp only [List.foldl_cons]
      apply ih
      dsimp only
      split
      · exact ⟨a, rfl⟩
      · exact hacc
  apply hfold
  cases hpop : pop with
  | nil => exact absurd hpop h
  | cons a rest => exact ⟨a, by simp⟩

lemma gaAttempt_individual_some (nodes : List MachineNode) (links : List MachineLink)
    (p : GAParams) (rA : ℕ → ℕ → ℚ) (oA : ℕ → EvOracle) (hp : 1 ≤ p.populationSize) :
    ∃ ind, (gaAttempt nodes links p rA oA).individual = some ind := by
  unfold gaAttempt
  apply gaBest_individual_some
  have hinit : gaInitPop nodes p rA ≠ [] := by
    unfold gaInitPop
    intro hc
    have := congrArg List.length hc
    simp at this
    omega
  have main : ∀ (L : List ℕ) (pop : List (List ℤ)), pop ≠ [] →
      L.foldl (fun pop g => gaEvolve nodes links p (oA g) pop) pop ≠ [] := by
    intro L
    induction L with
    | nil => intro pop h; exact h
    | cons g rest ih =>
      intro pop h
      simp only [List.foldl_cons]
      exact ih _ (gaEvolve_ne_nil nodes links p (oA g) pop h)
  exact main _ _ hinit

lemma gaSearch_produces (nodes : List MachineNode) (links : List MachineLink) (p : GAParams)
    (attempts : ℕ) (rinit : ℕ → ℕ → ℕ → ℚ) (orc : ℕ → ℕ → EvOracle)
    (ha : 1 ≤ attempts) (hp : 1 ≤ p.populationSize) :
    ∃ best ind, gaSearch nodes links p attempts rinit orc = some best
      ∧ best.individual = some ind := by
  unfold gaSearch
  have hgood : ∀ (L : List ℕ) (acc : Option GABest),
      (∃ b i, acc = some b ∧ b.individual = some i) →
      ∃ b i, L.foldl (fun acc a =>
          let res := gaAttempt nodes links p (rinit a) (orc a)
          match acc with
          | none => some res
          | some b => if ltInfOpt res.fitness b.fitness then some res else some b) acc
        = some b ∧ b.individual = some i := by
    intro L
    induction L with
    | nil => intro acc hacc; exact hacc
    | cons a rest ih =>
      intro acc hacc
      simp only [List.foldl_cons]
      apply ih
      obtain ⟨b, i, rfl, hbi⟩ := hacc
      obtain ⟨j, hj⟩ := gaAttempt_individual_some nodes links p (rinit a) (orc a) hp
      by_cases hlt : ltInfOpt (gaAttempt nodes links p (rinit a) (orc a)).fitness b.fitness
          = true
      · exact ⟨_, j, by dsimp only; rw [if_pos hlt], hj⟩
      · exact ⟨b, i, by dsimp only; rw [if_neg hlt], hbi⟩
  cases hatt : attempts with
  | zero => omega
  | succ n =>
    rw [List.range_succ_eq_map]
    simp only [List.foldl_cons]
    apply hgood
    obtain ⟨j, hj⟩ := gaAttempt_individual_some nodes links p (rinit 0) (orc 0) hp
    exact ⟨_, j, rfl, hj⟩

/-- Shared reachability fact: with at least one attempt and a non-empty
population every run resolves with a result. -/
lemma gaRun_ok (B : Buildings) (targets : List Target) (p : GAParams) (attempts : ℕ)
    (rinit : ℕ → ℕ → ℕ → ℚ) (orc : ℕ → ℕ → EvOracle)
    (ha : 1 ≤ attempts) (hp : 1 ≤ p.populationSize) :
    ∃ r, runGeneticOptimization B targets p attempts rinit orc = Except.ok r := by
  obtain ⟨best, ind, hs, hi⟩ := gaSearch_produces (gaNodes B targets) (optLinks B targets) p
    attempts rinit orc ha hp
  refine ⟨finishGA (gaNodes B targets) (optLinks B targets) ind, ?_⟩
  unfold runGeneticOptimization
  rw [hs]
  dsimp only
  rw [hi]

lemma optNodes_ids (B : Buildings) (targets : List Target) (pos : String → ℚ × ℚ) :
    (optNodes B targets pos).map (fun n => n.id)
      = nodeNames (calculateRequirements B targets).nodes := by
  simp only [optNodes, List.map_map, nodeNames]
  rfl

lemma gaNodes_ids (B : Buildings) (targets : List Target) :
    (gaNodes B targets).map (fun n => n.id)
      = nodeNames (calculateRequirements B targets).nodes := by
  simp only [gaNodes, List.map_map, nodeNames]
  rfl

lemma optimizeLayout_stats (B : Buildings) (targets : List Target) (numClusters : ℕ)
    (splitC constraints : List (String × String)) (attempts : ℕ)
    (pos : String → ℚ × ℚ) (shuffle : ℕ → List MachineNode → List MachineNode) :
    (optimizeLayout B targets numClusters splitC constraints attempts pos shuffle).stats.totalCrossFlow
      = statsFlow
          (optimizeLayout B targets numClusters splitC constraints attempts pos shuffle).nodes
          (optimizeLayout B targets numClusters splitC constraints attempts pos shuffle).links :=
  rfl

lemma optimizeLayout_ids (B : Buildings) (targets : List Target) (numClusters : ℕ)
    (splitC constraints : List (String × String)) (attempts : ℕ)
    (pos : String → ℚ × ℚ) (shuffle : ℕ → List MachineNode → List MachineNode) :
    (optimizeLayout B targets numClusters splitC constraints attempts pos shuffle).nodes.map
        (fun n => n.id)
      = (optNodes B targets pos).map (fun n => n.id) := by
  unfold optimizeLayout
  dsimp only
  split
  · rw [List.map_map]
    rfl
  · rfl

/-- C2: for both optimizers the reported `totalCrossFlow` is exactly
the sum of link values whose endpoints carry different final cluster
ids in the returned node list — recomputed from the links and the final
assignment, not taken from the search's internal best score. -/
theorem C2_crossflow_recomputed :
    (∀ (B : Buildings) (targets : List Target) (numClusters : ℕ)
        (splitC constraints : List (String × String)) (attempts : ℕ)
        (pos : String → ℚ × ℚ) (shuffle : ℕ → List MachineNode → List MachineNode),
      (optimizeLayout B targets numClusters splitC constraints attempts pos
          shuffle).stats.totalCrossFlow
        = crossFlowOf
            (optimizeLayout B targets numClusters splitC constraints attempts pos shuffle).nodes
            (optimizeLayout B targets numClusters splitC constraints attempts pos
              shuffle).links) ∧
    (∀ (B : Buildings) (targets : List Target) (p : GAParams) (attempts : ℕ)
        (rinit : ℕ → ℕ → ℕ → ℚ) (orc : ℕ → ℕ → EvOracle) (r : OptimizerResult),
      runGeneticOptimization B targets p attempts rinit orc = Except.ok r →
      r.stats.totalCrossFlow = crossFlowOf r.nodes r.links) := by
  constructor
  · intro B targets numClusters splitC constraints attempts pos shuffle
    rw [optimizeLayout_stats]
    apply statsFlow_eq_crossFlowOf
    rw [optimizeLayout_ids, optNodes_ids]
    exact calc_nodeNames_nodup B targets
  · intro B targets p attempts rinit orc r h
    unfold runGeneticOptimization at h
    cases hs : gaSearch (gaNodes B targets) (optLinks B targets) p attempts rinit orc with
    | none => rw [hs] at h; cases h
    | some best =>
      rw [hs] at h
      dsimp only at h
      cases hi : best.individual with
      | none => rw [hi] at h; cases h
      | some ind =>
        rw [hi] at h
        have hr := Except.ok.inj h
        rw [← hr]
        show statsFlowGA (gaNodes B targets) (optLinks B targets) ind
            = crossFlowOf (assignClusters ind 0 (gaNodes B targets)) (optLinks B targets)
        apply statsFlowGA_eq_crossFlow
        · rw [gaNodes_ids]
          exact calc_nodeNames_nodup B targets
        · exact gaSearch_len _ _ p attempts rinit orc best ind hs hi

/-- A trivial injected embedding for witnesses: every node at the
origin. -/
def posZero : String → ℚ × ℚ := fun _ => (0, 0)

/-- The identity shuffle (a legal outcome of a JavaScript sort). -/
def shuffleId : ℕ → List MachineNode → List MachineNode := fun _ l => l

/-- A constant-zero random stream for initialisation. -/
def rinit0 : ℕ → ℕ → ℕ → ℚ := fun _ _ _ => 0

/-- A constant-zero oracle (all draws 0, which lies in `[0,1)`). -/
def orc0 : ℕ → ℕ → EvOracle :=
  fun _ _ => ⟨fun _ _ => 0, fun _ _ => 0, fun _ _ => 0, fun _ _ => 0, fun _ _ => 0⟩

/-- Small concrete parameters for witnesses. -/
def gaTestParams : GAParams :=
  { populationSize := 1, generations := 0, mutationRate := 0, numClusters := 2,
    weights := ⟨0, 0, 0, 0⟩, constraints := [], splitConstraints := [],
    minClusterSize := 0, maxClusterSize := 10 }

/-- Witness for C2 at the smelter catalog, for both optimizers. -/
theorem C2_witness :
    ((optimizeLayout smelterCatalog smelterTargets 2 [] [] 1 posZero
        shuffleId).stats.totalCrossFlow
      = crossFlowOf
          (optimizeLayout smelterCatalog smelterTargets 2 [] [] 1 posZero shuffleId).nodes
          (optimizeLayout smelterCatalog smelterTargets 2 [] [] 1 posZero shuffleId).links) ∧
    (∃ r, runGeneticOptimization smelterCatalog smelterTargets gaTestParams 1 rinit0 orc0
        = Except.ok r
      ∧ r.stats.totalCrossFlow = crossFlowOf r.nodes r.links) := by
  constructor
  · exact C2_crossflow_recomputed.1 smelterCatalog smelterTargets 2 [] [] 1 posZero shuffleId
  · obtain ⟨r0, hr0⟩ := gaRun_ok smelterCatalog smelterTargets gaTestParams 1 rinit0 orc0
      (by norm_num) (by norm_num [gaTestParams])
    exact ⟨r0, hr0, C2_crossflow_recomputed.2 smelterCatalog smelterTargets gaTestParams 1
      rinit0 orc0 r0 hr0⟩

/-- C7: the attempt loop completing without a candidate surfaces as the
hard failure `Optimization failed` (only possible with zero attempts),
and under the preconditions `attempts ≥ 1` and `populationSize ≥ 1`
that branch is unreachable — every such run resolves with a result. -/
theorem C7_failure_surfaced :
    ∀ (B : Buildings) (targets : List Target) (p : GAParams) (attempts : ℕ)
      (rinit : ℕ → ℕ → ℕ → ℚ) (orc : ℕ → ℕ → EvOracle),
      (attempts = 0 → runGeneticOptimization B targets p attempts rinit orc
          = Except.error "Optimization failed") ∧
      (1 ≤ attempts → 1 ≤ p.populationSize →
        ∃ r, runGeneticOptimization B targets p attempts rinit orc = Except.ok r) := by
  intro B targets p attempts rinit orc
  constructor
  · intro h
    subst h
    rfl
  · intro ha hp
    exact gaRun_ok B targets p attempts rinit orc ha hp

/-- Witness for C7: zero attempts fail hard; one attempt with a
singleton population resolves. -/
theorem C7_witness :
    (runGeneticOptimization smelterCatalog smelterTargets gaTestParams 0 rinit0 orc0
      = Except.error "Optimization failed") ∧
    (∃ r, runGeneticOptimization smelterCatalog smelterTargets gaTestParams 1 rinit0 orc0
      = Except.ok r) :=
  ⟨(C7_failure_surfaced smelterCatalog smelterTargets gaTestParams 0 rinit0 orc0).1 rfl,
    (C7_failure_surfaced smelterCatalog smelterTargets gaTestParams 1 rinit0 orc0).2
      (by norm_num) (by norm_num [gaTestParams])⟩

/-! ### Centroid recomputation in a k-means round (claim C6) -/

/-- The items a round assigns to centroid `i` (nearest by squared
distance, ties to the lowest index). -/
def assignedTo (items : List MachineNode) (centroids : List (ℚ × ℚ)) (i : ℤ) :
    List MachineNode :=
  items.filter (fun nd => decide (nearestIdx centroids (nd.x, nd.y) = i))

lemma bumpSums_getElem? (sums : List SumAcc) :
    ∀ (j : ℤ) (i : ℕ) (x y : ℚ),
      (bumpSums sums j x y)[i]?
        = if j = (i : ℤ)
            then (sums[i]?).map (fun sa => ⟨sa.x + x, sa.y + y, sa.count + 1⟩)
            else sums[i]? := by
  induction sums with
  | nil =>
    intro j i x y
    simp only [bumpSums, List.getElem?_nil, Option.map_none']
    split <;> rfl
  | cons sa rest ih =>
    intro j i x y
    simp only [bumpSums]
    by_cases hj : j = 0
    · subst hj
      rw [if_pos rfl]
      cases i with
      | zero => simp
      | succ n =>
        rw [if_neg (by omega)]
        simp
    · rw [if_neg hj]
      cases i with
      | zero =>
        rw [if_neg (by omega)]
        simp
      | succ n =>
        simp only [List.getElem?_cons_succ]
        rw [ih (j - 1) n x y]
        by_cases h2 : j = ((n : ℤ) + 1)
        · rw [if_pos (by omega), if_pos (by push_cast; omega)]
        · rw [if_neg (by omega), if_neg (by push_cast; omega)]

lemma kmeansRound_sums (items : List MachineNode) (centroids : List (ℚ × ℚ))
    (prev : List (String × ℤ)) (i : ℕ) (hi : i < centroids.length) :
    (kmeansRound items centroids prev).sums[i]?
      = some ⟨((assignedTo items centroids (i : ℤ)).map (fun nd => nd.x)).sum,
              ((assignedTo items centroids (i : ℤ)).map (fun nd => nd.y)).sum,
              (assignedTo items centroids (i : ℤ)).length⟩ := by
  have main : ∀ (L : List MachineNode) (acc : RoundAcc) (sa : SumAcc),
      acc.sums[i]? = some sa →
      ((L.foldl
        (fun acc node =>
          let closest := nearestIdx centroids (node.x, node.y)
          { asg := mapSet acc.asg node.id closest
            sums := bumpSums acc.sums closest node.x node.y
            changed := acc.changed || decide (mapGet prev node.id ≠ some closest) })
        acc).sums)[i]?
        = some ⟨sa.x + ((L.filter (fun nd =>
                  decide (nearestIdx centroids (nd.x, nd.y) = (i : ℤ)))).map
                  (fun nd => nd.x)).sum,
                sa.y + ((L.filter (fun nd =>
                  decide (nearestIdx centroids (nd.x, nd.y) = (i : ℤ)))).map
                  (fun nd => nd.y)).sum,
                sa.count + (L.filter (fun nd =>
                  decide (nearestIdx centroids (nd.x, nd.y) = (i : ℤ)))).length⟩ := by
    intro L
    induction L with
    | nil =>
      intro acc sa hsa
      simpa using hsa
    | cons nd rest ihL =>
      intro acc sa hsa
      simp only [List.foldl_cons]
      by_cases hcl : nearestIdx centroids (nd.x, nd.y) = (i : ℤ)
      · have hstep : (bumpSums acc.sums (nearestIdx centroids (nd.x, nd.y)) nd.x nd.y)[i]?
            = some ⟨sa.x + nd.x, sa.y + nd.y, sa.count + 1⟩ := by
          rw [bumpSums_getElem?, if_pos hcl, hsa]
          rfl
        rw [ihL _ _ hstep]
        have hfil : (nd :: rest).filter
              (fun x => decide (nearestIdx centroids (x.x, x.y) = (i : ℤ)))
            = nd :: rest.filter
                (fun x => decide (nearestIdx centroids (x.x, x.y) = (i : ℤ))) := by
          simp [List.filter_cons, hcl]
        rw [hfil]
        simp only [List.map_cons, List.sum_cons, List.length_cons, Option.some.injEq,
          SumAcc.mk.injEq]
        refine ⟨by ring, by ring, by omega⟩
      · have hstep : (bumpSums acc.sums (nearestIdx centroids (nd.x, nd.y)) nd.x nd.y)[i]?
            = some sa := by
          rw [bumpSums_getElem?, if_neg hcl, hsa]
        rw [ihL _ _ hstep]
        have hfil : (nd :: rest).filter
              (fun x => decide (nearestIdx centroids (x.x, x.y) = (i : ℤ)))
            = rest.filter (fun x => decide (nearestIdx centroids (x.x, x.y) = (i : ℤ))) := by
          simp [List.filter_cons, hcl]
        rw [hfil]
  have h0 : (List.replicate centroids.length (⟨0, 0, 0⟩ : SumAcc))[i]? = some ⟨0, 0, 0⟩ := by
    rw [List.getElem?_replicate, if_pos hi]
  unfold kmeansRound
  have h := main items ⟨[], List.replicate centroids.length ⟨0, 0, 0⟩, false⟩ ⟨0, 0, 0⟩ h0
  rw [h]
  simp [assignedTo]

/-- C6 (amended): after assignment, a centroid with at least one member
becomes the mean position of its assigned items, while a centroid whose
cluster received zero members is reset to the origin `(0, 0)` — it does
not keep the prior iteration's value. -/
theorem C6_centroid_update (items : List MachineNode) (centroids : List (ℚ × ℚ))
    (prev : List (String × ℤ)) (i : ℕ) (hi : i < centroids.length) :
    ((assignedTo items centroids (i : ℤ)).length = 0 →
      (updateCentroids (kmeansRound items centroids prev).sums)[i]? = some (0, 0)) ∧
    (0 < (assignedTo items centroids (i : ℤ)).length →
      (updateCentroids (kmeansRound items centroids prev).sums)[i]?
        = some
            (((assignedTo items centroids (i : ℤ)).map (fun nd => nd.x)).sum
              / ((assignedTo items centroids (i : ℤ)).length : ℚ),
             ((assignedTo items centroids (i : ℤ)).map (fun nd => nd.y)).sum
              / ((assignedTo items centroids (i : ℤ)).length : ℚ))) := by
  have hs := kmeansRound_sums items centroids prev i hi
  unfold updateCentroids
  rw [List.getElem?_map, hs]
  constructor
  · intro h0
    simp [h0]
  · intro hpos
    simp only [Option.map_some']
    rw [if_pos hpos]

/-- A single item sitting at `(4, 0)`, used for the C6 instances. -/
def c6node : MachineNode :=
  { id := "a", name := "a", x := 4, y := 0, buildingId := "b", recipeOutputId := "a",
    clusterId := none, requiredAmount := 0, outputPerMachine := none, machineName := "m",
    category := "b" }

/-- The C6 item list. -/
def c6items : List MachineNode := [c6node]

/-- Two centroids: one on the item, one far away at `(10, 10)` that
will receive no members. -/
def c6cents : List (ℚ × ℚ) := [(4, 0), (10, 10)]

/-- C6 counterexample: the claim as stated — an empty cluster's
centroid keeps the prior iteration's value — is false: with one item at
`(4, 0)` and prior centroids `(4, 0)` and `(10, 10)`, centroid 1
receives no members and is reset to `(0, 0)`, not kept at `(10, 10)`. -/
theorem C6_counterexample :
    ¬ (∀ (items : List MachineNode) (centroids : List (ℚ × ℚ))
        (prev : List (String × ℤ)) (i : ℕ), i < centroids.length →
        (assignedTo items centroids (i : ℤ)).length = 0 →
        (updateCentroids (kmeansRound items centroids prev).sums)[i]? = centroids[i]?) := by
  intro h
  have h2 := h c6items c6cents [] 1 (by norm_num [c6cents])
    (by
      norm_num [assignedTo, c6items, c6cents, c6node, nearestIdx, nearestAux, closerThan,
        distSq])
  norm_num [updateCentroids, kmeansRound, c6items, c6cents, c6node, nearestIdx, nearestAux,
    closerThan, distSq, bumpSums, mapSet, mapGet, List.replicate, Prod.ext_iff] at h2

/-- Witness for C6 (amended): the empty cluster 1 resets to the origin
and the occupied cluster 0 moves to the mean of its single member. -/
theorem C6_witness :
    ((updateCentroids (kmeansRound c6items c6cents []).sums)[1]? = some (0, 0)) ∧
    ((updateCentroids (kmeansRound c6items c6cents []).sums)[0]?
      = some (((assignedTo c6items c6cents (0 : ℤ)).map (fun nd => nd.x)).sum
                / ((assignedTo c6items c6cents (0 : ℤ)).length : ℚ),
              ((assignedTo c6items c6cents (0 : ℤ)).map (fun nd => nd.y)).sum
                / ((assignedTo c6items c6cents (0 : ℤ)).length : ℚ))) :=
  ⟨(C6_centroid_update c6items c6cents [] 1 (by norm_num [c6cents])).1
      (by
        norm_num [assignedTo, c6items, c6cents, c6node, nearestIdx, nearestAux, closerThan,
          distSq]),
    (C6_centroid_update c6items c6cents [] 0 (by norm_num [c6cents])).2
      (by
        norm_num [assignedTo, c6items, c6cents, c6node, nearestIdx, nearestAux, closerThan,
          distSq])⟩

/-! ### Cluster ids stay inside the requested range (claim C3) -/

lemma nearestAux_bounds (p : ℚ × ℚ) :
    ∀ (cs : List (ℚ × ℚ)) (idx : ℕ) (acc : ℤ × Option ℚ),
      acc.2.isSome = true → 0 ≤ acc.1 → acc.1 < (idx : ℤ) →
      (nearestAux p cs idx acc).2.isSome = true
        ∧ 0 ≤ (nearestAux p cs idx acc).1
        ∧ (nearestAux p cs idx acc).1 < (idx : ℤ) + cs.length := by
  intro cs
  induction cs with
  | nil =>
    intro idx acc h1 h2 h3
    simp only [nearestAux, List.length_nil, Nat.cast_zero, add_zero]
    exact ⟨h1, h2, h3⟩
  | cons c rest ih =>
    intro idx acc h1 h2 h3
    simp only [nearestAux]
    by_cases hc : closerThan (distSq p c) acc.2 = true
    · rw [if_pos hc]
      have h := ih (idx + 1) ((idx : ℤ), some (distSq p c)) rfl
        (Int.natCast_nonneg idx) (by push_cast; omega)
      refine ⟨h.1, h.2.1, ?_⟩
      have := h.2.2
      simp only [List.length_cons] at this ⊢
      push_cast at this ⊢
      omega
    · rw [if_neg hc]
      have h := ih (idx + 1) acc h1 h2 (by push_cast at h3 ⊢; omega)
      refine ⟨h.1, h.2.1, ?_⟩
      have := h.2.2
      simp only [List.length_cons] at this ⊢
      push_cast at this ⊢
      omega

lemma nearestIdx_bounds (centroids : List (ℚ × ℚ)) (p : ℚ × ℚ) (h : centroids ≠ []) :
    0 ≤ nearestIdx centroids p ∧ nearestIdx centroids p < (centroids.length : ℤ) := by
  cases centroids with
  | nil => exact absurd rfl h
  | cons c rest =>
    unfold nearestIdx
    simp only [nearestAux]
    have hcl : closerThan (distSq p c) ((-1 : ℤ), (none : Option ℚ)).2 = true := rfl
    rw [if_pos hcl]
    have h := nearestAux_bounds p rest 1 ((0 : ℕ), some (distSq p c)) rfl
      (by norm_num) (by norm_num)
    refine ⟨h.2.1, ?_⟩
    have := h.2.2
    simp only [List.length_cons]
    push_cast at this ⊢
    omega

lemma mapSet_values {α : Type} (P : α → Prop) :
    ∀ (L : List (String × α)) (k : String) (v : α),
      (∀ kv ∈ L, P kv.2) → P v → ∀ kv ∈ mapSet L k v, P kv.2 := by
  intro L
  induction L with
  | nil =>
    intro k v _ hv kv hkv
    simp only [mapSet, List.mem_singleton] at hkv
    rw [hkv]
    exact hv
  | cons hd rest ih =>
    intro k v hL hv kv hkv
    obtain ⟨k', w⟩ := hd
    simp only [mapSet] at hkv
    by_cases hk : k' = k
    · rw [if_pos hk] at hkv
      rcases List.mem_cons.1 hkv with rfl | htail
      · exact hv
      · exact hL _ (List.mem_cons_of_mem _ htail)
    · rw [if_neg hk] at hkv
      rcases List.mem_cons.1 hkv with rfl | htail
      · exact hL _ (List.mem_cons_self _ _)
      · exact ih k v (fun x hx => hL x (List.mem_cons_of_mem _ hx)) hv kv htail

lemma mapGet_values {α : Type} (P : α → Prop) :
    ∀ (L : List (String × α)), (∀ kv ∈ L, P kv.2) →
      ∀ (k : String) (v : α), mapGet L k = some v → P v := by
  intro L
  induction L with
  | nil => intro _ k v h; cases h
  | cons hd rest ih =>
    intro hL k v h
    obtain ⟨k', w⟩ := hd
    simp only [mapGet] at h
    by_cases hk : k' = k
    · rw [if_pos hk] at h
      obtain rfl := Option.some.inj h
      exact hL _ (List.mem_cons_self _ _)
    · rw [if_neg hk] at h
      exact ih (fun x hx => hL x (List.mem_cons_of_mem _ hx)) k v h

lemma kmeansRound_asg_values (items : List MachineNode) (centroids : List (ℚ × ℚ))
    (prev : List (String × ℤ)) (h : centroids ≠ []) :
    ∀ kv ∈ (kmeansRound items centroids prev).asg,
      0 ≤ kv.2 ∧ kv.2 < (centroids.length : ℤ) := by
  have main : ∀ (L : List MachineNode) (acc : RoundAcc),
      (∀ kv ∈ acc.asg, 0 ≤ kv.2 ∧ kv.2 < (centroids.length : ℤ)) →
      ∀ kv ∈ (L.foldl
        (fun acc node =>
          let closest := nearestIdx centroids (node.x, node.y)
          { asg := mapSet acc.asg node.id closest
            sums := bumpSums acc.sums closest node.x node.y
            changed := acc.changed || decide (mapGet prev node.id ≠ some closest) })
        acc).asg, 0 ≤ kv.2 ∧ kv.2 < (centroids.length : ℤ) := by
    intro L
    induction L with
    | nil => intro acc hacc; exact hacc
    | cons nd rest ihL =>
      intro acc hacc
      simp only [List.foldl_cons]
      apply ihL
      exact mapSet_values (fun z => 0 ≤ z ∧ z < (centroids.length : ℤ)) acc.asg nd.id _ hacc
        (nearestIdx_bounds centroids (nd.x, nd.y) h)
  exact main items ⟨[], List.replicate centroids.length ⟨0, 0, 0⟩, false⟩ (by intro kv h; cases h)

lemma bumpSums_length :
    ∀ (sums : List SumAcc) (j : ℤ) (x y : ℚ), (bumpSums sums j x y).length = sums.length := by
  intro sums
  induction sums with
  | nil => intro j x y; rfl
  | cons sa rest ih =>
    intro j x y
    simp only [bumpSums]
    split
    · rfl
    · simp [ih]

lemma kmeansRound_sums_length (items : List MachineNode) (centroids : List (ℚ × ℚ))
    (prev : List (String × ℤ)) :
    (kmeansRound items centroids prev).sums.length = centroids.length := by
  have main : ∀ (L : List MachineNode) (acc : RoundAcc),
      (L.foldl
        (fun acc node =>
          let closest := nearestIdx centroids (node.x, node.y)
          { asg := mapSet acc.asg node.id closest
            sums := bumpSums acc.sums closest node.x node.y
            changed := acc.changed || decide (mapGet prev node.id ≠ some closest) })
        acc).sums.length = acc.sums.length := by
    intro L
    induction L with
    | nil => intro acc; rfl
    | cons nd rest ihL =>
      intro acc
      simp only [List.foldl_cons]
      rw [ihL]
      exact bumpSums_length _ _ _ _
  unfold kmeansRound
  rw [main items ⟨[], List.replicate centroids.length ⟨0, 0, 0⟩, false⟩]
  simp

lemma updateCentroids_length (sums : List SumAcc) :
    (updateCentroids sums).length = sums.length := List.length_map _ _

lemma kmeansIter_asg_values (items : List MachineNode) (k : ℕ) (hk : 0 < k) :
    ∀ (rem : ℕ) (centroids : List (ℚ × ℚ)) (asg : List (String × ℤ)),
      centroids.length = k →
      (∀ kv ∈ asg, 0 ≤ kv.2 ∧ kv.2 < (k : ℤ)) →
      ∀ kv ∈ kmeansIter items rem centroids asg, 0 ≤ kv.2 ∧ kv.2 < (k : ℤ) := by
  intro rem
  induction rem with
  | zero =>
    intro centroids asg _ hasg
    simpa [kmeansIter] using hasg
  | succ n ih =>
    intro centroids asg hlen hasg
    have hne : centroids ≠ [] := by
      intro hc
      rw [hc] at hlen
      simp at hlen
      omega
    have hround : ∀ kv ∈ (kmeansRound items centroids asg).asg, 0 ≤ kv.2 ∧ kv.2 < (k : ℤ) := by
      have h := kmeansRound_asg_values items centroids asg hne
      rw [hlen] at h
      exact h
    simp only [kmeansIter]
    split
    · apply ih
      · rw [updateCentroids_length, kmeansRound_sums_length, hlen]
      · exact hround
    · exact hround

lemma kmeansPass_values (items : List MachineNode) (links : List MachineLink)
    (splitC : List (String × String)) (k : ℕ) (shuffled : List MachineNode)
    (hk : 0 < k) (hlen : k ≤ shuffled.length) :
    ∀ kv ∈ (kmeansPass items links splitC k shuffled).1, 0 ≤ kv.2 ∧ kv.2 < (k : ℤ) := by
  unfold kmeansPass
  dsimp only
  apply kmeansIter_asg_values items k hk 50 _ []
  · rw [List.length_map, List.length_take]
    omega
  · intro kv h
    cases h

lemma kmeansBest_values (items : List MachineNode) (links : List MachineLink)
    (splitC : List (String × String)) (k attempts : ℕ)
    (shuffle : ℕ → List MachineNode → List MachineNode)
    (hk : 0 < k) (hlen : ∀ pass, k ≤ (shuffle pass items).length) :
    ∀ kv ∈ (kmeansBest items links splitC k attempts shuffle).1,
      0 ≤ kv.2 ∧ kv.2 < (k : ℤ) := by
  unfold kmeansBest
  have main : ∀ (ps : List ℕ) (acc : List (String × ℤ) × Option ℚ),
      (∀ kv ∈ acc.1, 0 ≤ kv.2 ∧ kv.2 < (k : ℤ)) →
      ∀ kv ∈ (ps.foldl
        (fun (acc : List (String × ℤ) × Option ℚ) pass =>
          let pr := kmeansPass items links splitC k (shuffle pass items)
          if ltInfQ pr.2 acc.2 then (pr.1, some pr.2) else acc)
        acc).1, 0 ≤ kv.2 ∧ kv.2 < (k : ℤ) := by
    intro ps
    induction ps with
    | nil => intro acc hacc; exact hacc
    | cons p0 rest ih =>
      intro acc hacc
      simp only [List.foldl_cons]
      apply ih
      dsimp only
      split
      · exact kmeansPass_values items links splitC k (shuffle p0 items) hk (hlen p0)
      · exact hacc
  exact main _ ([], none) (by intro kv h; cases h)

lemma optimizeLayout_nodes_pos (B : Buildings) (targets : List Target) (numClusters : ℕ)
    (splitC constraints : List (String × String)) (attempts : ℕ)
    (pos : String → ℚ × ℚ) (shuffle : ℕ → List MachineNode → List MachineNode)
    (h : 0 < (optItems B targets pos).length) :
    (optimizeLayout B targets numClusters splitC constraints attempts pos shuffle).nodes
      = (optNodes B targets pos).map
          (fun n =>
            { n with
              clusterId := some ((mapGet
                (kmeansBest (optItems B targets pos) (optLinks B targets) splitC
                  (min numClusters (optItems B targets pos).length) attempts shuffle).1
                n.id).getD 0) }) := by
  unfold optimizeLayout
  dsimp only
  rw [if_pos h]

/-- A legal cluster gene: a non-negative id strictly below `k`. -/
def GeneOK (k : ℕ) (g : ℤ) : Prop := 0 ≤ g ∧ g < (k : ℤ)

/-- A well-formed individual: one legal gene per node. -/
def IndOK (n k : ℕ) (ind : List ℤ) : Prop :=
  ind.length = n ∧ ∀ g ∈ ind, GeneOK k g

lemma randPick_bounds (r : ℚ) (k : ℕ) (h0 : 0 ≤ r) (h1 : r < 1) (hk : 0 < k) :
    GeneOK k (randPick r k) := by
  unfold randPick GeneOK
  constructor
  · exact Int.floor_nonneg.2 (mul_nonneg h0 (by positivity))
  · apply Int.floor_lt.2
    push_cast
    calc r * k < 1 * k := by
          apply mul_lt_mul_of_pos_right h1
          exact_mod_cast hk
    _ = k := one_mul _

lemma gaInitPop_ok (nodes : List MachineNode) (p : GAParams) (r : ℕ → ℕ → ℚ)
    (hr : UnitRange r) (hk : 0 < p.numClusters) :
    ∀ ind ∈ gaInitPop nodes p r, IndOK nodes.length p.numClusters ind := by
  intro ind hind
  obtain ⟨i, _, rfl⟩ := List.mem_map.1 hind
  constructor
  · simp
  · intro g hg
    obtain ⟨j, _, rfl⟩ := List.mem_map.1 hg
    exact randPick_bounds _ _ (hr i j).1 (hr i j).2 hk

lemma tpick_mem_of_valid (sorted : List (List ℤ × ℚ)) (r : ℚ)
    (h0 : 0 ≤ r) (h1 : r < 1) (hne : sorted ≠ []) :
    tpick sorted r ∈ sorted := by
  have hlen : 0 < sorted.length := List.length_pos.2 hne
  have hb := randPick_bounds r sorted.length h0 h1 hlen
  have hidx : (randPick r sorted.length).toNat < sorted.length := by
    have h2 := hb.2
    omega
  unfold tpick
  cases hg : sorted[(randPick r sorted.length).toNat]? with
  | none =>
    exfalso
    have := List.getElem?_eq_getElem hidx
    rw [hg] at this
    cases this
  | some x =>
    have hx : sorted.get? (randPick r sorted.length).toNat = some x := by
      rw [List.get?_eq_getElem?]
      exact hg
    exact List.get?_mem hx

lemma tournamentSelect_mem (sorted : List (List ℤ × ℚ)) (r : ℕ → ℚ)
    (hr : ∀ i, 0 ≤ r i ∧ r i < 1) (hne : sorted ≠ []) :
    ∃ pr ∈ sorted, tournamentSelect sorted r = pr.1 := by
  unfold tournamentSelect
  have main : ∀ (L : List ℕ) (b : List ℤ × ℚ), b ∈ sorted →
      (L.foldl (fun best i =>
        let cand := tpick sorted (r i)
        if cand.2 < best.2 then cand else best) b) ∈ sorted := by
    intro L
    induction L with
    | nil => intro b hb; exact hb
    | cons i rest ih =>
      intro b hb
      simp only [List.foldl_cons]
      apply ih
      dsimp only
      split
      · exact tpick_mem_of_valid sorted (r i) (hr i).1 (hr i).2 hne
      · exact hb
  exact ⟨_, main [1, 2, 3] (tpick sorted (r 0))
    (tpick_mem_of_valid sorted (r 0) (hr 0).1 (hr 0).2 hne), rfl⟩

lemma listMapIdx_getElem? {α β : Type} (f : ℕ → α → β) :
    ∀ (L : List α) (i0 j : ℕ), (listMapIdx f i0 L)[j]? = (L[j]?).map (f (i0 + j)) := by
  intro L
  induction L with
  | nil => intro i0 j; simp [listMapIdx]
  | cons a rest ih =>
    intro i0 j
    cases j with
    | zero => simp [listMapIdx]
    | succ m =>
      simp only [listMapIdx, List.getElem?_cons_succ]
      rw [ih (i0 + 1) m]
      have h : i0 + 1 + m = i0 + (m + 1) := by omega
      rw [h]

lemma gaCrossover_ok (n k : ℕ) (pA pB : List ℤ) (r : ℕ → ℚ)
    (hA : IndOK n k pA) (hB : IndOK n k pB) :
    IndOK n k (gaCrossover pA pB r) := by
  constructor
  · rw [gaCrossover_length]
    exact hA.1
  · intro g hg
    rw [List.mem_iff_getElem?] at hg
    obtain ⟨j, hj⟩ := hg
    unfold gaCrossover at hj
    rw [listMapIdx_getElem?] at hj
    cases hpa : pA[j]? with
    | none =>
      rw [hpa] at hj
      cases hj
    | some a =>
      rw [hpa] at hj
      have hjlen : j < pA.length := by
        by_contra hc
        rw [List.getElem?_eq_none (Nat.le_of_not_lt hc)] at hpa
        cases hpa
      have ha : a ∈ pA := by
        apply List.get?_mem
        rw [List.get?_eq_getElem?]
        exact hpa
      simp only [Option.map_some', Nat.zero_add, Option.some.injEq] at hj
      by_cases hcoin : r j < 1 / 2
      · rw [if_pos hcoin] at hj
        rw [← hj]
        exact hA.2 a ha
      · rw [if_neg hcoin] at hj
        have hjB : j < pB.length := by
          rw [hB.1, ← hA.1]
          exact hjlen
        rw [← hj, List.getD_eq_getElem _ _ hjB]
        exact hB.2 _ (List.getElem_mem _)

lemma gaMutate_ok (p : GAParams) (coin pick : ℕ → ℚ)
    (hpick : ∀ i, 0 ≤ pick i ∧ pick i < 1) (hk : 0 < p.numClusters)
    (n : ℕ) (ind : List ℤ) (h : IndOK n p.numClusters ind) :
    IndOK n p.numClusters (gaMutate p coin pick ind) := by
  constructor
  · rw [gaMutate_length]
    exact h.1
  · intro g hg
    rw [List.mem_iff_getElem?] at hg
    obtain ⟨j, hj⟩ := hg
    unfold gaMutate at hj
    rw [listMapIdx_getElem?] at hj
    cases hpa : ind[j]? with
    | none =>
      rw [hpa] at hj
      cases hj
    | some a =>
      rw [hpa] at hj
      have ha : a ∈ ind := by
        apply List.get?_mem
        rw [List.get?_eq_getElem?]
        exact hpa
      simp only [Option.map_some', Nat.zero_add, Option.some.injEq] at hj
      by_cases hcoin : coin j < p.mutationRate
      · rw [if_pos hcoin] at hj
        rw [← hj]
        exact randPick_bounds _ _ (hpick j).1 (hpick j).2 hk
      · rw [if_neg hcoin] at hj
        rw [← hj]
        exact h.2 a ha

lemma gaBreed_ok (sorted : List (List ℤ × ℚ)) (p : GAParams) (o : EvOracle)
    (hov : o.Valid) (hk : 0 < p.numClusters) (n : ℕ)
    (hne : sorted ≠ []) (hs : ∀ pr ∈ sorted, IndOK n p.numClusters pr.1) :
    ∀ (cnt idx : ℕ), ∀ ind ∈ gaBreed sorted p o cnt idx, IndOK n p.numClusters ind := by
  intro cnt
  induction cnt with
  | zero =>
    intro idx ind h
    simp [gaBreed] at h
  | succ m ih =>
    intro idx ind h
    simp only [gaBreed] at h
    rcases List.mem_cons.1 h with rfl | htail
    · obtain ⟨prA, hprA, hAeq⟩ := tournamentSelect_mem sorted (o.tournA idx)
        (fun i => hov.1 idx i) hne
      obtain ⟨prB, hprB, hBeq⟩ := tournamentSelect_mem sorted (o.tournB idx)
        (fun i => hov.2.1 idx i) hne
      apply gaMutate_ok p _ _ (fun i => hov.2.2.2.2 idx i) hk
      rw [hAeq, hBeq]
      exact gaCrossover_ok n p.numClusters _ _ _ (hs prA hprA) (hs prB hprB)
    · exact ih (idx + 1) ind htail

lemma gaEvolve_ok (nodes : List MachineNode) (links : List MachineLink) (p : GAParams)
    (o : EvOracle) (pop : List (List ℤ)) (n : ℕ) (hov : o.Valid) (hk : 0 < p.numClusters)
    (hne : pop ≠ []) (hpop : ∀ ind ∈ pop, IndOK n p.numClusters ind) :
    ∀ ind ∈ gaEvolve nodes links p o pop, IndOK n p.numClusters ind := by
  intro ind hind
  unfold gaEvolve at hind
  have hsne : gaSorted nodes links p pop ≠ [] := gaSorted_ne_nil nodes links p pop hne
  have hs : ∀ pr ∈ gaSorted nodes links p pop, IndOK n p.numClusters pr.1 :=
    fun pr hpr => hpop pr.1 (gaSorted_snd nodes links p pop pr hpr).2
  rcases List.mem_append.1 hind with helite | hbreed
  · obtain ⟨pr, hpr, hfst⟩ := List.mem_map.1 helite
    rw [← hfst]
    exact hs pr (List.take_subset _ _ hpr)
  · exact gaBreed_ok _ p o hov hk n hsne hs _ _ ind hbreed

lemma gaAttempt_ok (nodes : List MachineNode) (links : List MachineLink) (p : GAParams)
    (rA : ℕ → ℕ → ℚ) (oA : ℕ → EvOracle)
    (hr : UnitRange rA) (ho : ∀ g, (oA g).Valid)
    (hk : 0 < p.numClusters) (hp : 1 ≤ p.populationSize) :
    ∀ ind, (gaAttempt nodes links p rA oA).individual = some ind →
      IndOK nodes.length p.numClusters ind := by
  intro ind h
  unfold gaAttempt at h
  have hinit : gaInitPop nodes p rA ≠ [] := by
    unfold gaInitPop
    intro hc
    have := congrArg List.length hc
    simp at this
    omega
  have main : ∀ (L : List ℕ) (pop : List (List ℤ)), pop ≠ [] →
      (∀ i ∈ pop, IndOK nodes.length p.numClusters i) →
      (L.foldl (fun pop g => gaEvolve nodes links p (oA g) pop) pop ≠ []
        ∧ ∀ i ∈ L.foldl (fun pop g => gaEvolve nodes links p (oA g) pop) pop,
            IndOK nodes.length p.numClusters i) := by
    intro L
    induction L with
    | nil => intro pop h1 h2; exact ⟨h1, h2⟩
    | cons g rest ih =>
      intro pop h1 h2
      simp only [List.foldl_cons]
      exact ih _ (gaEvolve_ne_nil nodes links p (oA g) pop h1)
        (gaEvolve_ok nodes links p (oA g) pop _ (ho g) hk h1 h2)
  exact (main _ _ hinit (gaInitPop_ok nodes p rA hr hk)).2 ind
    (gaBest_mem nodes links p _ ind h)

lemma gaSearch_ok (nodes : List MachineNode) (links : List MachineLink) (p : GAParams)
    (attempts : ℕ) (rinit : ℕ → ℕ → ℕ → ℚ) (orc : ℕ → ℕ → EvOracle)
    (hr : ∀ a, UnitRange (rinit a)) (ho : ∀ a g, (orc a g).Valid)
    (hk : 0 < p.numClusters) (hp : 1 ≤ p.populationSize) :
    ∀ (best : GABest) (ind : List ℤ),
      gaSearch nodes links p attempts rinit orc = some best →
      best.individual = some ind → IndOK nodes.length p.numClusters ind := by
  have hfold : ∀ (L : List ℕ) (acc : Option GABest),
      (∀ b i, acc = some b → b.individual = some i →
        IndOK nodes.length p.numClusters i) →
      ∀ b i, L.foldl (fun acc a =>
          let res := gaAttempt nodes links p (rinit a) (orc a)
          match acc with
          | none => some res
          | some b => if ltInfOpt res.fitness b.fitness then some res else some b) acc
        = some b → b.individual = some i → IndOK nodes.length p.numClusters i := by
    intro L
    induction L with
    | nil => intro acc hacc; exact hacc
    | cons a rest ih =>
      intro acc hacc
      simp only [List.foldl_cons]
      apply ih
      intro b i hb hbi
      cases acc with
      | none =>
        obtain rfl := Option.some.inj hb
        exact gaAttempt_ok nodes links p (rinit a) (orc a) (hr a) (ho a) hk hp i hbi
      | some b0 =>
        have hb2 : (if ltInfOpt (gaAttempt nodes links p (rinit a) (orc a)).fitness b0.fitness
            then some (gaAttempt nodes links p (rinit a) (orc a)) else some b0) = some b := hb
        clear hb
        by_cases hlt : ltInfOpt (gaAttempt nodes links p (rinit a) (orc a)).fitness b0.fitness
            = true
        · rw [if_pos hlt] at hb2
          obtain rfl := Option.some.inj hb2
          exact gaAttempt_ok nodes links p (rinit a) (orc a) (hr a) (ho a) hk hp i hbi
        · rw [if_neg hlt] at hb2
          obtain rfl := Option.some.inj hb2
          exact hacc b0 i rfl hbi
  intro best ind hs hi
  exact hfold _ none (by intro b i hb _; cases hb) best ind hs hi

lemma assignClusters_ok (k : ℕ) (ind : List ℤ)
    (hgen : ∀ g ∈ ind, GeneOK k g) :
    ∀ (nodes : List MachineNode) (i0 : ℕ), i0 + nodes.length ≤ ind.length →
      ∀ n ∈ assignClusters ind i0 nodes,
        ∃ c, n.clusterId = some c ∧ 0 ≤ c ∧ c < (k : ℤ) := by
  intro nodes
  induction nodes with
  | nil =>
    intro i0 _ n h
    cases h
  | cons nd rest ih =>
    intro i0 hlen n h
    simp only [assignClusters] at h
    rcases List.mem_cons.1 h with rfl | htail
    · have hi : i0 < ind.length := by
        simp only [List.length_cons] at hlen
        omega
      cases hg : ind[i0]? with
      | none =>
        exfalso
        have := List.getElem?_eq_getElem hi
        rw [hg] at this
        cases this
      | some c =>
        have hc : c ∈ ind := by
          apply List.get?_mem
          rw [List.get?_eq_getElem?]
          exact hg
        exact ⟨c, by simp [hg], (hgen c hc).1, (hgen c hc).2⟩
    · apply ih (i0 + 1) _ n htail
      simp only [List.length_cons] at hlen
      omega

/-- C3: every node returned by either optimizer carries a defined
cluster id that is a non-negative integer strictly below the cluster
count — for k-means below the clamped `k = min numClusters (item
count)` (itself at most the requested count), and for the genetic
optimizer below the requested `numClusters`, under the `Math.random`
contract on the injected draws. -/
theorem C3_cluster_ids_in_range :
    (∀ (B : Buildings) (targets : List Target) (numClusters : ℕ)
        (splitC constraints : List (String × String)) (attempts : ℕ)
        (pos : String → ℚ × ℚ) (shuffle : ℕ → List MachineNode → List MachineNode),
      1 ≤ numClusters →
      (∀ pass l, (shuffle pass l).Perm l) →
      optItems B targets pos ≠ [] →
      ∀ n ∈ (optimizeLayout B targets numClusters splitC constraints attempts pos
          shuffle).nodes,
        ∃ c, n.clusterId = some c ∧ 0 ≤ c
          ∧ c < ((min numClusters (optItems B targets pos).length : ℕ) : ℤ)) ∧
    (∀ (B : Buildings) (targets : List Target) (p : GAParams) (attempts : ℕ)
        (rinit : ℕ → ℕ → ℕ → ℚ) (orc : ℕ → ℕ → EvOracle) (r : OptimizerResult),
      1 ≤ p.numClusters → 1 ≤ p.populationSize →
      (∀ a, UnitRange (rinit a)) → (∀ a g, (orc a g).Valid) →
      runGeneticOptimization B targets p attempts rinit orc = Except.ok r →
      ∀ n ∈ r.nodes, ∃ c, n.clusterId = some c ∧ 0 ≤ c ∧ c < (p.numClusters : ℤ)) := by
  constructor
  · intro B targets numClusters splitC constraints attempts pos shuffle h1 hsh hne n hn
    have hlen0 : 0 < (optItems B targets pos).length := List.length_pos.2 hne
    have hk : 0 < min numClusters (optItems B targets pos).length :=
      lt_min_iff.2 ⟨h1, hlen0⟩
    rw [optimizeLayout_nodes_pos B targets numClusters splitC constraints attempts pos
      shuffle hlen0] at hn
    obtain ⟨n0, hn0, rfl⟩ := List.mem_map.1 hn
    refine ⟨(mapGet
        (kmeansBest (optItems B targets pos) (optLinks B targets) splitC
          (min numClusters (optItems B targets pos).length) attempts shuffle).1
        n0.id).getD 0, rfl, ?_⟩
    have hvals := kmeansBest_values (optItems B targets pos) (optLinks B targets) splitC
      (min numClusters (optItems B targets pos).length) attempts shuffle hk
      (fun pass => by
        rw [(hsh pass (optItems B targets pos)).length_eq]
        exact min_le_right _ _)
    cases hg : mapGet
        (kmeansBest (optItems B targets pos) (optLinks B targets) splitC
          (min numClusters (optItems B targets pos).length) attempts shuffle).1
        n0.id with
    | none =>
      simp only [hg, Option.getD_none]
      exact ⟨le_refl 0, by exact_mod_cast hk⟩
    | some c =>
      have h := mapGet_values
        (fun z => 0 ≤ z ∧ z < ((min numClusters (optItems B targets pos).length : ℕ) : ℤ))
        (kmeansBest (optItems B targets pos) (optLinks B targets) splitC
          (min numClusters (optItems B targets pos).length) attempts shuffle).1
        hvals n0.id c hg
      simpa [hg] using h
  · intro B targets p attempts rinit orc r hk1 hp1 hrin horc hok
    unfold runGeneticOptimization at hok
    cases hs : gaSearch (gaNodes B targets) (optLinks B targets) p attempts rinit orc with
    | none =>
      rw [hs] at hok
      cases hok
    | some best =>
      rw [hs] at hok
      dsimp only at hok
      cases hi : best.individual with
      | none =>
        rw [hi] at hok
        cases hok
      | some ind =>
        rw [hi] at hok
        have hr := Except.ok.inj hok
        have hind := gaSearch_ok (gaNodes B targets) (optLinks B targets) p attempts rinit
          orc hrin horc hk1 hp1 best ind hs hi
        rw [← hr]
        intro n hn
        have hnodes : (finishGA (gaNodes B targets) (optLinks B targets) ind).nodes
            = assignClusters ind 0 (gaNodes B targets) := rfl
        rw [hnodes] at hn
        exact assignClusters_ok p.numClusters ind hind.2 (gaNodes B targets) 0
          (by rw [hind.1]; omega) n hn

lemma rinit0_unit : ∀ a, UnitRange (rinit0 a) := by
  intro a i j
  constructor <;> norm_num [rinit0]

lemma orc0_valid : ∀ a g, (orc0 a g).Valid := by
  intro a g
  refine ⟨?_, ?_, ?_, ?_, ?_⟩ <;> intro i j <;> constructor <;> norm_num [orc0]

lemma smelter_items_ne : optItems smelterCatalog smelterTargets posZero ≠ [] := by
  simp [optItems, optNodes, toMachineNode, posZero, calculateRequirements, calcWithFuel,
    sufficientFuel, recipeCount, traverse, nodePhase, ensureNode, addReq, freshNode,
    findRecipe, findRecipeIn, setAdd, finishCalc, decodeKey, splitOnPipe, smelterCatalog,
    smelterTargets]

/-- Witness for C3: the smelter instance under identity shuffle and the
constant-zero random streams, for both optimizers. -/
theorem C3_witness :
    ((1 : ℕ) ≤ 2 ∧ (∀ (pass : ℕ) (l : List MachineNode), (shuffleId pass l).Perm l)
      ∧ optItems smelterCatalog smelterTargets posZero ≠ []
      ∧ ∀ n ∈ (optimizeLayout smelterCatalog smelterTargets 2 [] [] 1 posZero
            shuffleId).nodes,
          ∃ c, n.clusterId = some c ∧ 0 ≤ c
            ∧ c < ((min 2 (optItems smelterCatalog smelterTargets posZero).length : ℕ) : ℤ)) ∧
    (∃ r, runGeneticOptimization smelterCatalog smelterTargets gaTestParams 1 rinit0 orc0
        = Except.ok r
      ∧ ∀ n ∈ r.nodes, ∃ c, n.clusterId = some c ∧ 0 ≤ c
          ∧ c < (gaTestParams.numClusters : ℤ)) := by
  constructor
  · refine ⟨by norm_num, fun pass l => List.Perm.refl l, smelter_items_ne, ?_⟩
    exact C3_cluster_ids_in_range.1 smelterCatalog smelterTargets 2 [] [] 1 posZero shuffleId
      (by norm_num) (fun pass l => List.Perm.refl l) smelter_items_ne
  · obtain ⟨r0, hr0⟩ := gaRun_ok smelterCatalog smelterTargets gaTestParams 1 rinit0 orc0
      (by norm_num) (by norm_num [gaTestParams])
    exact ⟨r0, hr0, C3_cluster_ids_in_range.2 smelterCatalog smelterTargets gaTestParams 1
      rinit0 orc0 r0 (by norm_num [gaTestParams]) (by norm_num [gaTestParams])
      rinit0_unit orc0_valid hr0⟩

end SR
